import Mathlib

/-!
# go-lru: an LRU cache with a keep period

A shallow embedding of `lru.go` (package `lru`) and a verification of its
specification.

* Clock readings (`time.Time`) and durations (`time.Duration`) are integers:
  nanoseconds counted from an arbitrary origin. `t.Add(d)` is `t + d`,
  `t.Before(u)` is `t < u`.
* The ordered map `orderedmap.OrderedMap[K, *timestampedValue[V]]` is the list of
  its pairs, from the oldest to the newest one. Its keys are pairwise distinct
  (predicate `WF`).
* The clock `now()` is read once per call of `Get` and `Set`; the reading is an
  argument of the embedded function.
* The zero value of `V` is `default`.
-/

namespace lru

variable {K V : Type}

/-- The Go type `timestampedValue[V]`: a value and the time it was last accessed. -/
structure TimestampedValue (V : Type) where
  value : V
  timestamp : Int
deriving DecidableEq, Repr

/-- The ordered map of the cache, as the list of its pairs, oldest first. -/
abbrev OrderedMap (K V : Type) := List (K × TimestampedValue V)

section orderedmap

variable [DecidableEq K]

/-- Lookup in the ordered map (`om.Get`, the map index of the library). -/
def omGet (key : K) : OrderedMap K V → Option (TimestampedValue V)
  | [] => none
  | pair :: rest => if pair.1 = key then some pair.2 else omGet key rest

/-- Removal of the pair stored under `key` (`om.Delete(key)`). -/
def omDelete (key : K) (om : OrderedMap K V) : OrderedMap K V :=
  om.filter (fun pair => decide (pair.1 ≠ key))

/-- Library call `om.Set(key, value)`: a stored key has its value replaced where it
stands and the previous value is returned; a new key is pushed to the back. -/
def omSet (key : K) (value : TimestampedValue V) (om : OrderedMap K V) :
    Option (TimestampedValue V) × OrderedMap K V :=
  match omGet key om with
  | some old => (some old, om.map (fun pair => if pair.1 = key then (pair.1, value) else pair))
  | none => (none, om ++ [(key, value)])

/-- Library call `om.MoveToBack(key)`: the pair of a stored key becomes the newest;
an error (no change) for an unknown key. -/
def omMoveToBack (key : K) (om : OrderedMap K V) : OrderedMap K V :=
  match omGet key om with
  | some value => omDelete key om ++ [(key, value)]
  | none => om

/-- Library call `om.GetAndMoveToBack(key)`: `none` stands for the error returned for
an unknown key; otherwise the stored value and the map with the pair moved to the
back. -/
def omGetAndMoveToBack (key : K) (om : OrderedMap K V) :
    Option (TimestampedValue V × OrderedMap K V) :=
  match omGet key om with
  | some value => some (value, omDelete key om ++ [(key, value)])
  | none => none

/-- The assignment `withTimestamp.timestamp = timestamp` of `Get`, made through the
pointer stored under `key`. -/
def omSetTimestamp (key : K) (timestamp : Int) (om : OrderedMap K V) : OrderedMap K V :=
  om.map (fun pair => if pair.1 = key then (pair.1, { pair.2 with timestamp := timestamp }) else pair)

end orderedmap

/-- The Go type `LRU[K, V]`. -/
structure LRU (K V : Type) where
  capacity : Int
  keepPeriod : Int
  om : OrderedMap K V
deriving DecidableEq

/-- The constructor `New(capacity, keepPeriod)`: an empty cache. -/
def New (capacity keepPeriod : Int) : LRU K V :=
  { capacity := capacity, keepPeriod := keepPeriod, om := [] }

/-- The method `Len`. -/
def LRU.Len (l : LRU K V) : Int := (l.om.length : Int)

/-- The keys of the cache, oldest first. -/
def LRU.keys (l : LRU K V) : List K := l.om.map Prod.fst

/-- Well-formed states: the keys of the ordered map are pairwise distinct. -/
def LRU.WF (l : LRU K V) : Prop := l.keys.Nodup

/-- The `for` loop of `prune`. The cursor `pair` starts at `om.Oldest()`; every pair
before the cursor has been deleted, so the cursor is the head of the current list and
`om.Delete(pair.Key)` removes that head.

The loop then advances with `pair.Next()` on the pair it has just deleted. What that
call yields is decided by the ordered-map dependency, which is not part of this
repository, and is the parameter `nextLinked`:
* `false`: a deleted pair has no successor (`Next()` is `nil`, as for an element
  removed from a Go `container/list` list, whose links are cleared), so the loop
  ends after its first deletion;
* `true`: the deleted pair still leads to the pair that followed it, so the loop
  goes on with the new oldest pair. -/
def pruneLoop (nextLinked : Bool) (capacity keepPeriod cutoff : Int) :
    OrderedMap K V → OrderedMap K V
  | [] => []
  | pair :: rest =>
    if ((pair :: rest).length : Int) > capacity ∧
        (keepPeriod ≤ 0 ∨ pair.2.timestamp < cutoff) then
      if nextLinked then pruneLoop nextLinked capacity keepPeriod cutoff rest else rest
    else pair :: rest

/-- The method `prune(timestamp)`. -/
def LRU.prune (nextLinked : Bool) (l : LRU K V) (timestamp : Int) : LRU K V :=
  if l.capacity > 0 then
    { l with om := pruneLoop nextLinked l.capacity l.keepPeriod (timestamp + -l.keepPeriod) l.om }
  else l

/-- The state in which `Get` looks its key up: the first statement of `Get`, which
prunes when there is a keep period. -/
def LRU.lookupState (nextLinked : Bool) (l : LRU K V) (now : Int) : LRU K V :=
  if l.keepPeriod > 0 then l.prune nextLinked now else l

section operations

variable [DecidableEq K] [Inhabited V]

/-- The method `Get(key)`, with the clock reading `now` of the call: the returned
pair `(val, present)` and the state after the call. -/
def LRU.Get (nextLinked : Bool) (l : LRU K V) (now : Int) (key : K) : (V × Bool) × LRU K V :=
  let l1 := if l.keepPeriod > 0 then l.prune nextLinked now else l
  match omGetAndMoveToBack key l1.om with
  | some (withTimestamp, om1) =>
    ((withTimestamp.value, true), { l1 with om := omSetTimestamp key now om1 })
  | none => ((default, false), l1)

/-- The method `Set(key, value)`, with the clock reading `now` of the call: the
returned pair `(val, present)` and the state after the call. -/
def LRU.Set (nextLinked : Bool) (l : LRU K V) (now : Int) (key : K) (value : V) :
    (V × Bool) × LRU K V :=
  let r := omSet key { value := value, timestamp := now } l.om
  match r.1 with
  | some withTimestamp =>
    ((withTimestamp.value, true),
      LRU.prune nextLinked { l with om := omMoveToBack key r.2 } now)
  | none => ((default, false), LRU.prune nextLinked { l with om := r.2 } now)

/-- A call of one of the two public operations, with the clock reading of the call. -/
inductive Op (K V : Type) where
  | get (now : Int) (key : K)
  | set (now : Int) (key : K) (value : V)

/-- The clock reading of a call. -/
def Op.time : Op K V → Int
  | .get now _ => now
  | .set now _ _ => now

/-- The key a call accesses. -/
def Op.key : Op K V → K
  | .get _ key => key
  | .set _ key _ => key

/-- The state after one call. -/
def LRU.step (nextLinked : Bool) (l : LRU K V) : Op K V → LRU K V
  | .get now key => (l.Get nextLinked now key).2
  | .set now key value => (l.Set nextLinked now key value).2

/-- The state after a sequence of calls, made from left to right. -/
def LRU.run (nextLinked : Bool) (l : LRU K V) (ops : List (Op K V)) : LRU K V :=
  ops.foldl (LRU.step nextLinked) l

end operations

/-- The keys and values of the cache, oldest first (what the tests compare). -/
def LRU.contents (l : LRU K V) : List (K × V) := l.om.map (fun pair => (pair.1, pair.2.value))

/-- The key a call writes: the key of a `Set`, nothing for a `Get`. -/
def Op.written : Op K V → Option K
  | .get _ _ => none
  | .set _ key _ => some key

/-- The keys written by a sequence of calls, in the order of the calls. -/
def setKeys (ops : List (Op K V)) : List K := ops.filterMap Op.written

section results

variable [DecidableEq K] [Inhabited V]

/-- The pair `(val, present)` one call returns. -/
def LRU.stepResult (nextLinked : Bool) (l : LRU K V) : Op K V → V × Bool
  | .get now key => (l.Get nextLinked now key).1
  | .set now key value => (l.Set nextLinked now key value).1

/-- The pairs returned by a sequence of calls, made from left to right. -/
def LRU.results (nextLinked : Bool) (l : LRU K V) : List (Op K V) → List (V × Bool)
  | [] => []
  | op :: rest => l.stepResult nextLinked op :: (l.step nextLinked op).results nextLinked rest

end results

/-- A sequence of writes: one `Set(key, value)` per triple `(time, key, value)`. -/
def writesOf (writes : List (Int × K × V)) : List (Op K V) :=
  writes.map (fun w => Op.set w.1 w.2.1 w.2.2)

/-- The helper `tail(a, n)` of the tests: the last `n` items of `a`. -/
def tail {α : Type} (a : List α) (n : Nat) : List α :=
  if n ≥ a.length then a else a.drop (a.length - n)

/-- The writes of test `TestBasicUsageWithNoKeepPeriod`, as triples (all at time 0; there
is no keep period). -/
def tenTriples : List (Int × Nat × Nat) := (List.range 10).map (fun i => (0, i, 2 * i))

/-- Test `TestBasicUsageWithNoKeepPeriod`: ten writes, a read of an unknown key, a read
of key 8 and a write of key 7. -/
def noKeepScenario : List (Op Nat Nat) :=
  writesOf tenTriples ++ [Op.get 0 10, Op.get 0 8, Op.set 0 7 99]

/-- One second (`time.Second`), in nanoseconds. -/
def second : Int := 1000000000

/-- One minute (`time.Minute`), in nanoseconds. -/
def minute : Int := 60 * second

/-- The writes of test `TestBasicUsageWithKeepPeriod`: `Set(i, 2 * i)` when the test
clock shows `i + 1` minutes, for `i` from 0 to 9. -/
def keepTriples : List (Int × Nat × Nat) :=
  (List.range 10).map (fun (i : Nat) => (((i : Int) + 1) * minute, i, 2 * i))

/-- Test `TestBasicUsageWithKeepPeriod`: the ten writes, then, 30 minutes after the last
one, a read of key 7. -/
def keepScenario : List (Op Nat Nat) := writesOf keepTriples ++ [Op.get (40 * minute) 7]

/-- The stop condition of the pruning routine in the words of the specification, for the
state `l` the routine leaves and the reference time `T`: the entry count is at most the
capacity, or there is a keep period and the oldest remaining entry is not strictly
before `T - keepPeriod`. -/
def PruneStopped (l : LRU K V) (T : Int) : Prop :=
  l.Len ≤ l.capacity ∨
    (l.keepPeriod > 0 ∧ ∀ pair ∈ l.om.head?, ¬ pair.2.timestamp < T - l.keepPeriod)

/-- Three keys written within two seconds. -/
def threeWrites : List (Op Nat Nat) :=
  [Op.set 0 1 10, Op.set second 2 20, Op.set (2 * second) 3 30]

/-- Three keys written within two seconds, then a read of an unrelated key one hour
later. -/
def idleScenario : List (Op Nat Nat) := threeWrites ++ [Op.get (60 * minute) 9]

/-- A cache of capacity 1 without keep period that holds three keys: more than its
capacity. -/
def overfull : LRU Nat Nat :=
  { capacity := 1, keepPeriod := 0,
    om := [(1, { value := 10, timestamp := 0 }), (2, { value := 20, timestamp := 1 }),
           (3, { value := 30, timestamp := 2 })] }

/-- Two keys written within one second, then a read of the first key one hour later. -/
def staleRead : List (Op Nat Nat) :=
  [Op.set 0 1 10, Op.set second 2 20, Op.get (60 * minute) 1]

/-- Test `TestBasicUsageWithNoKeepPeriod` up to its first `Get`: ten writes. -/
def tenWrites : List (Op Nat Nat) := (List.range 10).map (fun i => Op.set 0 i (2 * i))

/-- A cache of capacity 1 with a keep period of 60 that holds two keys, written at
times 0 and 1: the second write found the first key protected. -/
def twoProtected : LRU Nat Nat :=
  { capacity := 1, keepPeriod := 60,
    om := [(1, { value := 10, timestamp := 0 }), (2, { value := 20, timestamp := 1 })] }

/-- The timestamps of the cache do not decrease from the oldest to the newest pair, and
none of them is after `now`. -/
def omOrdered (om : OrderedMap K V) (now : Int) : Prop :=
  (om.map (fun pair => pair.2.timestamp)).Pairwise (fun s t => s ≤ t) ∧
    ∀ pair ∈ om, pair.2.timestamp ≤ now

/-- The timestamps of the cache are ordered and not after `now`. -/
def LRU.Ordered (l : LRU K V) (now : Int) : Prop := omOrdered l.om now

/-- The state invariant in the words of the specification, at the end of a call made at
time `now`: the entry count is at most the capacity, or every entry is strictly inside
its keep period. -/
def SpecInvariant (l : LRU K V) (now : Int) : Prop :=
  l.Len ≤ l.capacity ∨ ∀ pair ∈ l.om, now - pair.2.timestamp < l.keepPeriod

/-- Two writes, the second exactly one keep period (10) after the first. -/
def boundaryWrites : List (Op Nat Nat) := [Op.set 0 1 10, Op.set 10 2 20]

/-- Three writes within one keep period (60), then a read of an unknown key long after
the keep period of all three has elapsed. -/
def writesThenIdleRead : List (Op Nat Nat) :=
  [Op.set 0 1 10, Op.set 1 2 20, Op.set 2 3 30, Op.get 3600 9]

/-! ## The ordered map -/

section lemmas

variable [DecidableEq K]

theorem omGet_eq_none_iff (key : K) (om : OrderedMap K V) :
    omGet key om = none ↔ key ∉ om.map Prod.fst := by
  induction om with
  | nil => simp [omGet]
  | cons pair rest ih =>
    by_cases h : pair.1 = key
    · simp [omGet, h]
    · have h2 : ¬ key = pair.1 := fun e => h e.symm
      simp [omGet, h, h2, ih]

theorem omGet_mem {key : K} {om : OrderedMap K V} {tv : TimestampedValue V}
    (h : omGet key om = some tv) : (key, tv) ∈ om := by
  induction om with
  | nil => simp [omGet] at h
  | cons pair rest ih =>
    by_cases hk : pair.1 = key
    · simp [omGet, hk] at h
      subst h
      subst hk
      simp
    · simp [omGet, hk] at h
      exact List.mem_cons_of_mem _ (ih h)

theorem omGet_of_mem_nodup {key : K} {om : OrderedMap K V} {tv : TimestampedValue V}
    (hnd : (om.map Prod.fst).Nodup) (h : (key, tv) ∈ om) : omGet key om = some tv := by
  induction om with
  | nil => simp at h
  | cons pair rest ih =>
    simp only [List.map_cons, List.nodup_cons] at hnd
    rcases List.mem_cons.mp h with h1 | h1
    · subst h1
      simp [omGet]
    · have hk : pair.1 ≠ key := by
        intro e
        apply hnd.1
        rw [e]
        exact List.mem_map_of_mem Prod.fst h1
      simp [omGet, hk, ih hnd.2 h1]

theorem omGet_none_of_suffix {key : K} {ys om : OrderedMap K V} (hs : ys <:+ om)
    (h : omGet key om = none) : omGet key ys = none := by
  rw [omGet_eq_none_iff] at h ⊢
  intro hmem
  exact h (List.map_subset Prod.fst hs.subset hmem)

theorem omGet_append (key : K) (xs ys : OrderedMap K V) :
    omGet key (xs ++ ys) = (omGet key xs).orElse (fun _ => omGet key ys) := by
  induction xs with
  | nil => simp [omGet]
  | cons pair rest ih =>
    by_cases hk : pair.1 = key
    · simp [omGet, hk]
    · simp [omGet, hk, ih]

theorem omGet_omDelete_self (key : K) (om : OrderedMap K V) :
    omGet key (omDelete key om) = none := by
  rw [omGet_eq_none_iff]
  simp [omDelete, List.mem_filter]

theorem omDelete_cons (key : K) (pair : K × TimestampedValue V) (rest : OrderedMap K V) :
    omDelete key (pair :: rest)
      = if pair.1 = key then omDelete key rest else pair :: omDelete key rest := by
  unfold omDelete
  by_cases hk : pair.1 = key <;> simp [List.filter_cons, hk]

theorem omGet_omDelete_ne {key other : K} (h : other ≠ key) (om : OrderedMap K V) :
    omGet other (omDelete key om) = omGet other om := by
  induction om with
  | nil => rfl
  | cons pair rest ih =>
    rw [omDelete_cons]
    by_cases hk : pair.1 = key
    · have ho : ¬ pair.1 = other := fun e => h (e.symm.trans hk)
      rw [if_pos hk, ih]
      simp [omGet, ho]
    · rw [if_neg hk]
      by_cases ho : pair.1 = other
      · simp [omGet, ho]
      · simp [omGet, ho, ih]

theorem omDelete_of_absent {key : K} {om : OrderedMap K V} (h : omGet key om = none) :
    omDelete key om = om := by
  rw [omGet_eq_none_iff] at h
  unfold omDelete
  rw [List.filter_eq_self]
  intro pair hp
  have : pair.1 ≠ key := by
    intro e
    apply h
    rw [← e]
    exact List.mem_map_of_mem Prod.fst hp
  simpa using this

theorem omDelete_map_replace (key : K) (value : TimestampedValue V) (om : OrderedMap K V) :
    omDelete key (om.map (fun pair => if pair.1 = key then (pair.1, value) else pair))
      = omDelete key om := by
  induction om with
  | nil => rfl
  | cons pair rest ih =>
    rw [List.map_cons, omDelete_cons, omDelete_cons, ih]
    by_cases hk : pair.1 = key <;> simp [hk]

theorem omGet_map_replace (key : K) (value : TimestampedValue V) (om : OrderedMap K V) :
    omGet key (om.map (fun pair => if pair.1 = key then (pair.1, value) else pair))
      = (omGet key om).map (fun _ => value) := by
  induction om with
  | nil => rfl
  | cons pair rest ih =>
    by_cases hk : pair.1 = key
    · simp [omGet, hk]
    · simp [omGet, hk, ih]

/-- After `om.Set(key, value)` and, for a key that was stored, `om.MoveToBack(key)`,
the pair of `key` is the newest and the other pairs are as before. -/
theorem omSet_moveToBack (key : K) (value : TimestampedValue V) (om : OrderedMap K V) :
    (match (omSet key value om).1 with
      | some _ => omMoveToBack key (omSet key value om).2
      | none => (omSet key value om).2) = omDelete key om ++ [(key, value)] := by
  unfold omSet
  cases h : omGet key om with
  | none => simp [omDelete_of_absent h]
  | some old => simp [omMoveToBack, omGet_map_replace, h, omDelete_map_replace]

theorem omSetTimestamp_omDelete (key : K) (timestamp : Int) (om : OrderedMap K V) :
    omSetTimestamp key timestamp (omDelete key om) = omDelete key om := by
  induction om with
  | nil => rfl
  | cons pair rest ih =>
    rw [omDelete_cons]
    by_cases hk : pair.1 = key
    · rw [if_pos hk, ih]
    · rw [if_neg hk]
      unfold omSetTimestamp at ih ⊢
      rw [List.map_cons, ih]
      simp [hk]

theorem omSetTimestamp_moved (key : K) (timestamp : Int) (tv : TimestampedValue V)
    (om : OrderedMap K V) :
    omSetTimestamp key timestamp (omDelete key om ++ [(key, tv)])
      = omDelete key om ++ [(key, { value := tv.value, timestamp := timestamp })] := by
  have h := omSetTimestamp_omDelete key timestamp om
  unfold omSetTimestamp at h ⊢
  rw [List.map_append, h]
  simp

/-! ## The pruning loop -/

omit [DecidableEq K] in
theorem pruneLoop_suffix (nextLinked : Bool) (capacity keepPeriod cutoff : Int)
    (om : OrderedMap K V) : pruneLoop nextLinked capacity keepPeriod cutoff om <:+ om := by
  induction om with
  | nil => exact List.suffix_refl _
  | cons pair rest ih =>
    unfold pruneLoop
    split
    · cases nextLinked
      · exact List.suffix_cons _ _
      · exact ih.trans (List.suffix_cons _ _)
    · exact List.suffix_refl _

omit [DecidableEq K] in
/-- The newest pair is never deleted when the capacity is positive: a deletion needs
more than `capacity` pairs, hence at least two. -/
theorem pruneLoop_snoc (nextLinked : Bool) {capacity : Int} (hc : 0 < capacity)
    (keepPeriod cutoff : Int) (xs : OrderedMap K V) (e : K × TimestampedValue V) :
    ∃ ys, ys <:+ xs ∧ pruneLoop nextLinked capacity keepPeriod cutoff (xs ++ [e]) = ys ++ [e] := by
  induction xs with
  | nil =>
    refine ⟨[], List.suffix_refl _, ?_⟩
    have h : ¬ ((1 : Int) > capacity) := by omega
    simp [pruneLoop, h]
  | cons pair rest ih =>
    obtain ⟨ys, hys, hy⟩ := ih
    rw [List.cons_append]
    unfold pruneLoop
    split
    · cases nextLinked
      · exact ⟨rest, List.suffix_cons _ _, by simp⟩
      · exact ⟨ys, hys.trans (List.suffix_cons _ _), by simpa using hy⟩
    · exact ⟨pair :: rest, List.suffix_refl _, rfl⟩

omit [DecidableEq K] in
theorem pruneLoop_length_le_of_linked {capacity keepPeriod : Int} (hc : 0 ≤ capacity)
    (hp : keepPeriod ≤ 0) (cutoff : Int) (om : OrderedMap K V) :
    ((pruneLoop true capacity keepPeriod cutoff om).length : Int) ≤ capacity := by
  induction om with
  | nil => simpa [pruneLoop] using hc
  | cons pair rest ih =>
    unfold pruneLoop
    split
    · simpa using ih
    · rename_i h
      simp only [not_and_or, not_or] at h
      rcases h with h | h
      · omega
      · omega

omit [DecidableEq K] in
/-- Without a keep period, pruning a map that exceeds the capacity by at most one pair
brings it back under the capacity, whatever `Next` yields on a deleted pair. -/
theorem pruneLoop_length_le (nextLinked : Bool) {capacity keepPeriod : Int} (hc : 0 ≤ capacity)
    (hp : keepPeriod ≤ 0) (cutoff : Int) (om : OrderedMap K V)
    (hlen : (om.length : Int) ≤ capacity + 1) :
    ((pruneLoop nextLinked capacity keepPeriod cutoff om).length : Int) ≤ capacity := by
  cases nextLinked
  · cases om with
    | nil => simpa [pruneLoop] using hc
    | cons pair rest =>
      unfold pruneLoop
      split
      · simp only [List.length_cons, Nat.cast_add, Nat.cast_one] at hlen
        simp only [Bool.false_eq_true, if_false]
        omega
      · rename_i h
        simp only [not_and_or, not_or] at h
        rcases h with h | h
        · omega
        · omega
  · exact pruneLoop_length_le_of_linked hc hp cutoff om

/-- A pair whose timestamp is not before the cutoff survives the loop when there is a
keep period. -/
theorem pruneLoop_protected (nextLinked : Bool) (capacity : Int) {keepPeriod : Int}
    (hp : 0 < keepPeriod) (cutoff : Int) {key : K} {tv : TimestampedValue V}
    (om : OrderedMap K V) (hget : omGet key om = some tv) (hts : ¬ tv.timestamp < cutoff) :
    omGet key (pruneLoop nextLinked capacity keepPeriod cutoff om) = some tv := by
  induction om with
  | nil => simp [omGet] at hget
  | cons pair rest ih =>
    unfold pruneLoop
    split
    · rename_i h
      have hexp : pair.2.timestamp < cutoff := by
        rcases h.2 with h2 | h2
        · omega
        · exact h2
      have hk : ¬ pair.1 = key := by
        intro e
        simp [omGet, e] at hget
        rw [hget] at hexp
        exact hts hexp
      have hrest : omGet key rest = some tv := by simpa [omGet, hk] using hget
      cases nextLinked
      · simpa using hrest
      · simpa using ih hrest
    · exact hget

omit [DecidableEq K] in
theorem prune_om_suffix (nextLinked : Bool) (l : LRU K V) (timestamp : Int) :
    (l.prune nextLinked timestamp).om <:+ l.om := by
  unfold LRU.prune
  split
  · exact pruneLoop_suffix _ _ _ _ _
  · exact List.suffix_refl _

omit [DecidableEq K] in
theorem prune_capacity (nextLinked : Bool) (l : LRU K V) (timestamp : Int) :
    (l.prune nextLinked timestamp).capacity = l.capacity := by
  unfold LRU.prune
  split <;> rfl

omit [DecidableEq K] in
theorem prune_keepPeriod (nextLinked : Bool) (l : LRU K V) (timestamp : Int) :
    (l.prune nextLinked timestamp).keepPeriod = l.keepPeriod := by
  unfold LRU.prune
  split <;> rfl

omit [DecidableEq K] in
/-- Pruning never deletes the newest pair. -/
theorem prune_snoc (nextLinked : Bool) (capacity keepPeriod timestamp : Int)
    (xs : OrderedMap K V) (e : K × TimestampedValue V) :
    ∃ ys, ys <:+ xs ∧
      (LRU.prune nextLinked { capacity := capacity, keepPeriod := keepPeriod, om := xs ++ [e] }
        timestamp).om = ys ++ [e] := by
  unfold LRU.prune
  by_cases hc : capacity > 0
  · obtain ⟨ys, h1, h2⟩ := pruneLoop_snoc nextLinked hc keepPeriod (timestamp + -keepPeriod) xs e
    exact ⟨ys, h1, by simpa [hc] using h2⟩
  · exact ⟨xs, List.suffix_refl _, by simp [hc]⟩

omit [DecidableEq K] in
theorem lookupState_om_suffix (nextLinked : Bool) (l : LRU K V) (now : Int) :
    (l.lookupState nextLinked now).om <:+ l.om := by
  unfold LRU.lookupState
  split
  · exact prune_om_suffix _ _ _
  · exact List.suffix_refl _

omit [DecidableEq K] in
theorem lookupState_capacity (nextLinked : Bool) (l : LRU K V) (now : Int) :
    (l.lookupState nextLinked now).capacity = l.capacity := by
  unfold LRU.lookupState
  split
  · exact prune_capacity _ _ _
  · rfl

omit [DecidableEq K] in
theorem lookupState_keepPeriod (nextLinked : Bool) (l : LRU K V) (now : Int) :
    (l.lookupState nextLinked now).keepPeriod = l.keepPeriod := by
  unfold LRU.lookupState
  split
  · exact prune_keepPeriod _ _ _
  · rfl

/-! ## `Get` and `Set` in closed form -/

section closed

variable [Inhabited V]

theorem Get_eq (nextLinked : Bool) (l : LRU K V) (now : Int) (key : K) :
    l.Get nextLinked now key =
      match omGet key (l.lookupState nextLinked now).om with
      | some tv =>
        ((tv.value, true),
          { l.lookupState nextLinked now with
            om := omDelete key (l.lookupState nextLinked now).om
              ++ [(key, { value := tv.value, timestamp := now })] })
      | none => ((default, false), l.lookupState nextLinked now) := by
  unfold LRU.Get
  show (match omGetAndMoveToBack key (l.lookupState nextLinked now).om with
    | some (withTimestamp, om1) =>
      ((withTimestamp.value, true),
        { l.lookupState nextLinked now with om := omSetTimestamp key now om1 })
    | none => ((default, false), l.lookupState nextLinked now)) = _
  unfold omGetAndMoveToBack
  cases h : omGet key (l.lookupState nextLinked now).om with
  | none => rfl
  | some tv => simp [omSetTimestamp_moved]

theorem Set_fst (nextLinked : Bool) (l : LRU K V) (now : Int) (key : K) (value : V) :
    (l.Set nextLinked now key value).1 =
      match omGet key l.om with
      | some old => (old.value, true)
      | none => (default, false) := by
  unfold LRU.Set omSet
  cases h : omGet key l.om <;> rfl

theorem Set_snd (nextLinked : Bool) (l : LRU K V) (now : Int) (key : K) (value : V) :
    (l.Set nextLinked now key value).2 =
      LRU.prune nextLinked
        { l with om := omDelete key l.om ++ [(key, { value := value, timestamp := now })] } now := by
  have h := omSet_moveToBack key { value := value, timestamp := now } l.om
  unfold LRU.Set
  simp only
  split
  · rename_i old hr
    rw [hr] at h
    simp only at h
    rw [h]
  · rename_i hr
    rw [hr] at h
    simp only at h
    rw [h]

end closed

/-! ## Effect of one call on the stored pairs -/

section effects

variable [Inhabited V]

omit [Inhabited V] in
theorem omDelete_length_le (key : K) (om : OrderedMap K V) :
    (omDelete key om).length ≤ om.length :=
  List.length_filter_le _ _

omit [Inhabited V] in
theorem omDelete_length_lt {key : K} {om : OrderedMap K V} {tv : TimestampedValue V}
    (h : omGet key om = some tv) : (omDelete key om).length < om.length := by
  induction om with
  | nil => simp [omGet] at h
  | cons pair rest ih =>
    rw [omDelete_cons]
    by_cases hk : pair.1 = key
    · rw [if_pos hk]
      have := omDelete_length_le key rest
      simp only [List.length_cons]
      omega
    · rw [if_neg hk]
      have hrest : omGet key rest = some tv := by simpa [omGet, hk] using h
      have := ih hrest
      simp only [List.length_cons]
      omega

omit [Inhabited V] in
theorem omGet_of_suffix_omDelete {key : K} {ys om : OrderedMap K V}
    (h : ys <:+ omDelete key om) : omGet key ys = none := by
  rw [omGet_eq_none_iff]
  intro hmem
  obtain ⟨pair, hp, hk⟩ := List.mem_map.mp hmem
  have h2 : pair ∈ omDelete key om := h.subset hp
  unfold omDelete at h2
  have h3 := (List.mem_filter.mp h2).2
  simp [hk] at h3

omit [Inhabited V] in
theorem omGet_snoc_self {key : K} {ys : OrderedMap K V} (h : omGet key ys = none)
    (tv : TimestampedValue V) : omGet key (ys ++ [(key, tv)]) = some tv := by
  rw [omGet_append, h]
  simp [omGet]

omit [Inhabited V] in
theorem omGet_snoc_ne {key other : K} (hne : other ≠ key) (ys : OrderedMap K V)
    (tv : TimestampedValue V) : omGet other (ys ++ [(key, tv)]) = omGet other ys := by
  have hk : ¬ key = other := fun e => hne e.symm
  rw [omGet_append]
  cases omGet other ys <;> simp [omGet, hk]

/-- The state after `Set`: the pair just written is the newest one, and the pairs before
it are the newest pairs of the other keys, unchanged. -/
theorem Set_om (nextLinked : Bool) (l : LRU K V) (now : Int) (key : K) (value : V) :
    ∃ ys, ys <:+ omDelete key l.om ∧
      (l.Set nextLinked now key value).2.om = ys ++ [(key, { value := value, timestamp := now })] := by
  rw [Set_snd]
  exact prune_snoc nextLinked l.capacity l.keepPeriod now (omDelete key l.om) _

/-- The state after a `Get` that finds its key. -/
theorem Get_hit (nextLinked : Bool) (l : LRU K V) (now : Int) (key : K)
    {tv : TimestampedValue V} (h : omGet key (l.lookupState nextLinked now).om = some tv) :
    l.Get nextLinked now key =
      ((tv.value, true),
        { l.lookupState nextLinked now with
          om := omDelete key (l.lookupState nextLinked now).om
            ++ [(key, { value := tv.value, timestamp := now })] }) := by
  rw [Get_eq, h]

/-- The state after a `Get` that does not find its key. -/
theorem Get_miss (nextLinked : Bool) (l : LRU K V) (now : Int) (key : K)
    (h : omGet key (l.lookupState nextLinked now).om = none) :
    l.Get nextLinked now key = ((default, false), l.lookupState nextLinked now) := by
  rw [Get_eq, h]

theorem Get_present_iff (nextLinked : Bool) (l : LRU K V) (now : Int) (key : K) :
    (l.Get nextLinked now key).1.2 = true ↔
      ∃ tv, omGet key (l.lookupState nextLinked now).om = some tv := by
  cases h : omGet key (l.lookupState nextLinked now).om with
  | none => simp [Get_miss nextLinked l now key h]
  | some tv => simp [Get_hit nextLinked l now key h]

theorem Get_capacity (nextLinked : Bool) (l : LRU K V) (now : Int) (key : K) :
    (l.Get nextLinked now key).2.capacity = l.capacity := by
  cases h : omGet key (l.lookupState nextLinked now).om with
  | none => rw [Get_miss nextLinked l now key h]; exact lookupState_capacity _ _ _
  | some tv => rw [Get_hit nextLinked l now key h]; exact lookupState_capacity _ _ _

theorem Get_keepPeriod (nextLinked : Bool) (l : LRU K V) (now : Int) (key : K) :
    (l.Get nextLinked now key).2.keepPeriod = l.keepPeriod := by
  cases h : omGet key (l.lookupState nextLinked now).om with
  | none => rw [Get_miss nextLinked l now key h]; exact lookupState_keepPeriod _ _ _
  | some tv => rw [Get_hit nextLinked l now key h]; exact lookupState_keepPeriod _ _ _

theorem Set_capacity (nextLinked : Bool) (l : LRU K V) (now : Int) (key : K) (value : V) :
    (l.Set nextLinked now key value).2.capacity = l.capacity := by
  rw [Set_snd, prune_capacity]

theorem Set_keepPeriod (nextLinked : Bool) (l : LRU K V) (now : Int) (key : K) (value : V) :
    (l.Set nextLinked now key value).2.keepPeriod = l.keepPeriod := by
  rw [Set_snd, prune_keepPeriod]

theorem step_capacity (nextLinked : Bool) (l : LRU K V) (op : Op K V) :
    (l.step nextLinked op).capacity = l.capacity := by
  cases op with
  | get now key => exact Get_capacity _ _ _ _
  | set now key value => exact Set_capacity _ _ _ _ _

theorem step_keepPeriod (nextLinked : Bool) (l : LRU K V) (op : Op K V) :
    (l.step nextLinked op).keepPeriod = l.keepPeriod := by
  cases op with
  | get now key => exact Get_keepPeriod _ _ _ _
  | set now key value => exact Set_keepPeriod _ _ _ _ _

/-- The `Get` method never adds a pair. -/
theorem Get_length_le (nextLinked : Bool) (l : LRU K V) (now : Int) (key : K) :
    (l.Get nextLinked now key).2.om.length ≤ l.om.length := by
  have hs := (lookupState_om_suffix nextLinked l now).length_le
  cases h : omGet key (l.lookupState nextLinked now).om with
  | none => rw [Get_miss nextLinked l now key h]; exact hs
  | some tv =>
    rw [Get_hit nextLinked l now key h]
    have := omDelete_length_lt h
    simp only [List.length_append, List.length_singleton]
    omega

/-- Without a keep period a cache that respects its capacity still does after `Set`. -/
theorem Set_length_le (nextLinked : Bool) (l : LRU K V) (now : Int) (key : K) (value : V)
    (hc : 1 ≤ l.capacity) (hp : l.keepPeriod ≤ 0) (hlen : (l.om.length : Int) ≤ l.capacity) :
    ((l.Set nextLinked now key value).2.om.length : Int) ≤ l.capacity := by
  rw [Set_snd]
  unfold LRU.prune
  have hpos : l.capacity > 0 := by omega
  simp only [hpos, if_true]
  apply pruneLoop_length_le nextLinked (by omega) hp
  have := omDelete_length_le key l.om
  simp only [List.length_append, List.length_singleton]
  omega

theorem step_length_le (nextLinked : Bool) (l : LRU K V) (op : Op K V)
    (hc : 1 ≤ l.capacity) (hp : l.keepPeriod ≤ 0) (hlen : (l.om.length : Int) ≤ l.capacity) :
    ((l.step nextLinked op).om.length : Int) ≤ l.capacity := by
  cases op with
  | get now key =>
    have := Get_length_le nextLinked l now key
    show (((l.Get nextLinked now key).2.om.length : Nat) : Int) ≤ l.capacity
    omega
  | set now key value => exact Set_length_le nextLinked l now key value hc hp hlen

theorem run_length_le (nextLinked : Bool) (ops : List (Op K V)) (l : LRU K V)
    (hc : 1 ≤ l.capacity) (hp : l.keepPeriod ≤ 0) (hlen : (l.om.length : Int) ≤ l.capacity) :
    ((l.run nextLinked ops).om.length : Int) ≤ l.capacity := by
  induction ops generalizing l with
  | nil => exact hlen
  | cons op rest ih =>
    have h1 := step_length_le nextLinked l op hc hp hlen
    have hcap := step_capacity nextLinked l op
    have hkeep := step_keepPeriod nextLinked l op
    have := ih (l.step nextLinked op) (by rw [hcap]; exact hc) (by rw [hkeep]; exact hp)
      (by rw [hcap]; exact h1)
    rw [hcap] at this
    exact this

omit [Inhabited V] in
theorem prune_protected (nextLinked : Bool) (l : LRU K V) (now : Int) (hp : 0 < l.keepPeriod)
    {key : K} {tv : TimestampedValue V} (hget : omGet key l.om = some tv)
    (hts : now < tv.timestamp + l.keepPeriod) :
    omGet key (l.prune nextLinked now).om = some tv := by
  unfold LRU.prune
  split
  · exact pruneLoop_protected nextLinked _ hp _ _ hget (by omega)
  · exact hget

/-- A pair stored after a call under a key other than the accessed one was stored,
with the same value and timestamp, before the call. -/
theorem mem_of_mem_step (nextLinked : Bool) (l : LRU K V) (op : Op K V) {key : K}
    {tv : TimestampedValue V} (hne : key ≠ op.key) (h : (key, tv) ∈ (l.step nextLinked op).om) :
    (key, tv) ∈ l.om := by
  cases op with
  | get now k =>
    have hs := lookupState_om_suffix nextLinked l now
    change (key, tv) ∈ (l.Get nextLinked now k).2.om at h
    cases hg : omGet k (l.lookupState nextLinked now).om with
    | none =>
      rw [Get_miss nextLinked l now k hg] at h
      exact hs.subset h
    | some old =>
      rw [Get_hit nextLinked l now k hg] at h
      simp only [List.mem_append, List.mem_singleton, Prod.mk.injEq] at h
      rcases h with h | h
      · unfold omDelete at h
        exact hs.subset (List.mem_filter.mp h).1
      · exact absurd h.1 hne
  | set now k value =>
    change (key, tv) ∈ (l.Set nextLinked now k value).2.om at h
    obtain ⟨ys, hys, heq⟩ := Set_om nextLinked l now k value
    rw [heq] at h
    simp only [List.mem_append, List.mem_singleton, Prod.mk.injEq] at h
    rcases h with h | h
    · have h2 := hys.subset h
      unfold omDelete at h2
      exact (List.mem_filter.mp h2).1
    · exact absurd h.1 hne

omit [DecidableEq K] [Inhabited V] in
theorem prune_snoc_of_eq (nextLinked : Bool) (l : LRU K V) (timestamp : Int)
    {xs : OrderedMap K V} {e : K × TimestampedValue V} (h : l.om = xs ++ [e]) :
    ∃ ys, ys <:+ xs ∧ (l.prune nextLinked timestamp).om = ys ++ [e] := by
  obtain ⟨ys, h1, h2⟩ := prune_snoc nextLinked l.capacity l.keepPeriod timestamp xs e
  refine ⟨ys, h1, ?_⟩
  rw [← h2, ← h]

omit [DecidableEq K] [Inhabited V] in
theorem lookupState_snoc_of_eq (nextLinked : Bool) (l : LRU K V) (now : Int)
    {xs : OrderedMap K V} {e : K × TimestampedValue V} (h : l.om = xs ++ [e]) :
    ∃ ys, ys <:+ xs ∧ (l.lookupState nextLinked now).om = ys ++ [e] := by
  unfold LRU.lookupState
  split
  · exact prune_snoc_of_eq nextLinked l now h
  · exact ⟨xs, List.suffix_refl _, h⟩

/-- A `Get` of the newest key finds it: pruning never deletes the newest pair. -/
theorem Get_of_newest (nextLinked : Bool) (l : LRU K V) (now : Int) {key : K}
    {xs : OrderedMap K V} {tv : TimestampedValue V} (h : l.om = xs ++ [(key, tv)])
    (habsent : omGet key xs = none) : (l.Get nextLinked now key).1 = (tv.value, true) := by
  obtain ⟨ys, hys, heq⟩ := lookupState_snoc_of_eq nextLinked l now h
  have hg : omGet key (l.lookupState nextLinked now).om = some tv := by
    rw [heq]
    exact omGet_snoc_self (omGet_none_of_suffix hys habsent) _
  rw [Get_hit nextLinked l now key hg]

/-- The state after a `Get` that finds its key: the pair of the key is the newest one,
with the returned value and the clock reading of the call, and the pairs before it are
the newest pairs of the other keys, unchanged. -/
theorem Get_om_of_present (nextLinked : Bool) (l : LRU K V) (now : Int) (key : K)
    (h : (l.Get nextLinked now key).1.2 = true) :
    ∃ ys, ys <:+ omDelete key l.om ∧
      (l.Get nextLinked now key).2.om
        = ys ++ [(key, { value := (l.Get nextLinked now key).1.1, timestamp := now })] := by
  obtain ⟨tv, hg⟩ := (Get_present_iff nextLinked l now key).mp h
  rw [Get_hit nextLinked l now key hg]
  exact ⟨_, List.IsSuffix.filter _ (lookupState_om_suffix nextLinked l now), rfl⟩

omit [Inhabited V] in
theorem map_fst_omDelete (key : K) (om : OrderedMap K V) :
    (omDelete key om).map Prod.fst = (om.map Prod.fst).filter (fun x => decide (x ≠ key)) := by
  unfold omDelete
  rw [List.filter_map]
  rfl

omit [Inhabited V] in
/-- Keys that survive a call keep their relative order: if the keys after the call are
a suffix `T` of the other keys followed by the accessed key, the keys other than the
accessed one are, in the order of before, the keys of before that are still stored. -/
theorem keys_order {before T : List K} {key : K} (hnd : before.Nodup)
    (hT : T <:+ before.filter (fun x => decide (x ≠ key))) :
    (T ++ [key]).getLast? = some key ∧
    (T ++ [key]).filter (fun x => decide (x ≠ key))
      = before.filter (fun x => decide (x ≠ key ∧ x ∈ T ++ [key])) := by
  refine ⟨List.getLast?_concat _, ?_⟩
  have hTne : ∀ x ∈ T, x ≠ key := by
    intro x hx
    have := (List.mem_filter.mp (hT.subset hx)).2
    simpa using this
  have hl : (T ++ [key]).filter (fun x => decide (x ≠ key)) = T := by
    rw [List.filter_append, List.filter_eq_self.mpr (fun a ha => by simpa using hTne a ha)]
    simp
  have hr : before.filter (fun x => decide (x ≠ key ∧ x ∈ T ++ [key]))
      = (before.filter (fun x => decide (x ≠ key))).filter (fun x => decide (x ∈ T)) := by
    rw [List.filter_filter]
    apply List.filter_congr
    intro x _
    by_cases hx : x = key
    · simp [hx]
    · simp [hx]
  rw [hl, hr]
  obtain ⟨pre, hpre⟩ := hT
  have hnd2 : (pre ++ T).Nodup := by
    rw [hpre]
    exact hnd.filter _
  rw [← hpre, List.filter_append]
  have hd := (List.nodup_append.mp hnd2).2.2
  have h1 : pre.filter (fun x => decide (x ∈ T)) = [] := by
    rw [List.filter_eq_nil_iff]
    intro a ha
    simpa using fun hm => hd ha hm
  have h2 : T.filter (fun x => decide (x ∈ T)) = T :=
    List.filter_eq_self.mpr (fun a ha => by simpa using ha)
  rw [h1, h2]
  rfl

/-! ## Invariants of the reachable states -/

omit [DecidableEq K] [Inhabited V] in
theorem keys_snoc (ys : OrderedMap K V) (key : K) (tv : TimestampedValue V) :
    (ys ++ [(key, tv)]).map Prod.fst = ys.map Prod.fst ++ [key] := by
  simp

omit [Inhabited V] in
theorem nodup_keys_snoc {om ys : OrderedMap K V} {key : K} (tv : TimestampedValue V)
    (hnd : (om.map Prod.fst).Nodup) (hys : ys <:+ omDelete key om) :
    ((ys ++ [(key, tv)]).map Prod.fst).Nodup := by
  rw [keys_snoc]
  have hsub : (ys.map Prod.fst).Sublist (om.map Prod.fst) := by
    have h1 := (List.IsSuffix.map Prod.fst hys).sublist
    rw [map_fst_omDelete] at h1
    exact h1.trans (List.filter_sublist _)
  have hk : key ∉ ys.map Prod.fst := (omGet_eq_none_iff key ys).mp (omGet_of_suffix_omDelete hys)
  rw [List.nodup_append]
  refine ⟨hnd.sublist hsub, List.nodup_singleton _, ?_⟩
  intro x hx hx2
  rw [List.mem_singleton] at hx2
  exact hk (hx2 ▸ hx)

/-- Well-formedness is kept by every call. -/
theorem step_WF (nextLinked : Bool) (l : LRU K V) (op : Op K V) (hwf : l.WF) :
    (l.step nextLinked op).WF := by
  unfold LRU.WF LRU.keys at hwf ⊢
  cases op with
  | get now key =>
    change ((l.Get nextLinked now key).2.om.map Prod.fst).Nodup
    cases hg : omGet key (l.lookupState nextLinked now).om with
    | none =>
      rw [Get_miss nextLinked l now key hg]
      exact hwf.sublist ((List.IsSuffix.map Prod.fst (lookupState_om_suffix nextLinked l now)).sublist)
    | some tv =>
      rw [Get_hit nextLinked l now key hg]
      exact nodup_keys_snoc _ hwf
        (List.IsSuffix.filter _ (lookupState_om_suffix nextLinked l now))
  | set now key value =>
    change ((l.Set nextLinked now key value).2.om.map Prod.fst).Nodup
    obtain ⟨ys, hys, heq⟩ := Set_om nextLinked l now key value
    rw [heq]
    exact nodup_keys_snoc _ hwf hys

theorem run_WF (nextLinked : Bool) (ops : List (Op K V)) (l : LRU K V) (hwf : l.WF) :
    (l.run nextLinked ops).WF := by
  induction ops generalizing l with
  | nil => exact hwf
  | cons op rest ih => exact ih _ (step_WF nextLinked l op hwf)

omit [DecidableEq K] [Inhabited V] in
theorem ordered_mono {l : LRU K V} {s t : Int} (h : l.Ordered s) (hst : s ≤ t) : l.Ordered t :=
  ⟨h.1, fun pair hp => le_trans (h.2 pair hp) hst⟩

omit [DecidableEq K] [Inhabited V] in
theorem ordered_of_sublist {om om2 : OrderedMap K V} {now : Int}
    (h : omOrdered om now) (hs : om2.Sublist om) : omOrdered om2 now :=
  ⟨h.1.sublist (hs.map _), fun pair hp => h.2 pair (hs.subset hp)⟩

omit [DecidableEq K] [Inhabited V] in
theorem ordered_snoc {om : OrderedMap K V} {now : Int}
    (h : omOrdered om now) (key : K) (value : V) :
    omOrdered (om ++ [(key, (⟨value, now⟩ : TimestampedValue V))]) now := by
  constructor
  · rw [List.map_append, List.pairwise_append]
    refine ⟨h.1, by simp, ?_⟩
    intro a ha b hb
    obtain ⟨pair, hp, rfl⟩ := List.mem_map.mp ha
    simp only [List.map_cons, List.map_nil, List.mem_singleton] at hb
    rw [hb]
    exact h.2 pair hp
  · intro pair hp
    rcases List.mem_append.mp hp with hp | hp
    · exact h.2 pair hp
    · rw [List.mem_singleton] at hp
      rw [hp]

/-- A call made no earlier than every stored timestamp keeps the timestamps ordered. -/
theorem step_ordered (nextLinked : Bool) (l : LRU K V) (op : Op K V)
    (h : l.Ordered op.time) : (l.step nextLinked op).Ordered op.time := by
  unfold LRU.Ordered at h ⊢
  cases op with
  | get now key =>
    change omOrdered l.om now at h
    change omOrdered (l.Get nextLinked now key).2.om now
    have hs := (lookupState_om_suffix nextLinked l now).sublist
    cases hg : omGet key (l.lookupState nextLinked now).om with
    | none =>
      rw [Get_miss nextLinked l now key hg]
      exact ordered_of_sublist h hs
    | some tv =>
      rw [Get_hit nextLinked l now key hg]
      exact ordered_snoc (ordered_of_sublist h ((List.filter_sublist _).trans hs)) key tv.value
  | set now key value =>
    change omOrdered l.om now at h
    change omOrdered (l.Set nextLinked now key value).2.om now
    rw [Set_snd]
    exact ordered_of_sublist
      (ordered_snoc (ordered_of_sublist h (List.filter_sublist l.om)) key value)
      (prune_om_suffix nextLinked _ now).sublist

theorem run_ordered (nextLinked : Bool) (ops : List (Op K V)) (l : LRU K V) (t : Int)
    (hclock : (ops.map Op.time).Pairwise (fun s t => s ≤ t))
    (hle : ∀ op ∈ ops, op.time ≤ t) (hops : ∀ op ∈ ops, l.Ordered op.time)
    (hl : l.Ordered t) : (l.run nextLinked ops).Ordered t := by
  induction ops generalizing l with
  | nil => exact hl
  | cons op rest ih =>
    rw [List.map_cons, List.pairwise_cons] at hclock
    have h1 := step_ordered nextLinked l op (hops op (List.mem_cons_self _ _))
    apply ih (l.step nextLinked op) hclock.2
      (fun o ho => hle o (List.mem_cons_of_mem _ ho))
    · intro o ho
      exact ordered_mono h1 (hclock.1 _ (List.mem_map_of_mem _ ho))
    · exact ordered_mono h1 (hle op (List.mem_cons_self _ _))

omit [DecidableEq K] [Inhabited V] in
/-- Where the loop of `prune` stops. If the loop goes on after a deletion, or if it
deleted nothing, then at its end the map respects the capacity, or there is a keep
period and the oldest remaining pair is not before the cutoff. -/
theorem pruneLoop_stop (nextLinked : Bool) {capacity : Int} (hc : 0 ≤ capacity)
    (keepPeriod cutoff : Int) (om : OrderedMap K V)
    (h : nextLinked = true ∨ pruneLoop nextLinked capacity keepPeriod cutoff om = om) :
    ((pruneLoop nextLinked capacity keepPeriod cutoff om).length : Int) ≤ capacity ∨
    (0 < keepPeriod ∧
      ∀ pair ∈ (pruneLoop nextLinked capacity keepPeriod cutoff om).head?,
        cutoff ≤ pair.2.timestamp) := by
  induction om with
  | nil => exact Or.inl (by simpa [pruneLoop] using hc)
  | cons pair rest ih =>
    unfold pruneLoop at h ⊢
    split
    · rename_i hcond
      rw [if_pos hcond] at h
      cases nextLinked
      · rcases h with h | h
        · exact absurd h (by simp)
        · have := congrArg List.length h
          simp at this
      · simpa using ih (Or.inl rfl)
    · rename_i hcond
      simp only [not_and_or, not_or, not_le, not_lt] at hcond
      rcases hcond with hcond | hcond
      · exact Or.inl (by omega)
      · exact Or.inr ⟨hcond.1, by simpa using hcond.2⟩

omit [DecidableEq K] [Inhabited V] in
theorem prune_stop (nextLinked : Bool) (l : LRU K V) (now : Int) (hc : 1 ≤ l.capacity)
    (hord : (l.om.map (fun pair => pair.2.timestamp)).Pairwise (fun s t => s ≤ t))
    (h : nextLinked = true ∨ (l.prune nextLinked now).om = l.om) :
    ((l.prune nextLinked now).om.length : Int) ≤ l.capacity ∨
    (0 < l.keepPeriod ∧
      ∀ pair ∈ (l.prune nextLinked now).om, now - pair.2.timestamp ≤ l.keepPeriod) := by
  have hs := prune_om_suffix nextLinked l now
  have hord2 := hord.sublist (hs.sublist.map _)
  unfold LRU.prune at h hord2 ⊢
  have hpos : l.capacity > 0 := by omega
  simp only [hpos, if_true] at h hord2 ⊢
  rcases pruneLoop_stop nextLinked (by omega : (0 : Int) ≤ l.capacity) l.keepPeriod
    (now + -l.keepPeriod) l.om h with h1 | ⟨h1, h2⟩
  · exact Or.inl h1
  · refine Or.inr ⟨h1, ?_⟩
    intro pair hp
    generalize pruneLoop nextLinked l.capacity l.keepPeriod (now + -l.keepPeriod) l.om = R
      at h2 hord2 hp
    cases R with
    | nil => simp at hp
    | cons first rest =>
      have hfirst : now + -l.keepPeriod ≤ first.2.timestamp := h2 first (by simp)
      rw [List.map_cons, List.pairwise_cons] at hord2
      rcases List.mem_cons.mp hp with hp | hp
      · rw [hp]
        omega
      · have := hord2.1 _ (List.mem_map_of_mem (fun pair => pair.2.timestamp) hp)
        omega

omit [DecidableEq K] [Inhabited V] in
/-- If every key of a map with distinct keys is a key of one of its suffixes, the suffix
is the whole map. -/
theorem suffix_eq_of_keys {om R : OrderedMap K V} (hnd : (om.map Prod.fst).Nodup)
    (hs : R <:+ om) (hkeys : ∀ key ∈ om.map Prod.fst, key ∈ R.map Prod.fst) : R = om := by
  obtain ⟨pre, hpre⟩ := hs
  cases pre with
  | nil => simpa using hpre
  | cons pair rest =>
    exfalso
    rw [← hpre] at hnd hkeys
    simp only [List.cons_append, List.map_cons, List.map_append, List.nodup_cons] at hnd hkeys
    have := hkeys pair.1 (List.mem_cons_self _ _)
    exact hnd.1 (List.mem_append_right _ this)

/-- The invariant after one call, from a well-formed state whose timestamps are ordered
and not after the call. With a keep period: if the loop of `prune` goes on after a
deletion, or if the call removed no key, the state after the call respects the
capacity or holds only pairs whose age is at most the keep period. -/
theorem step_invariant (nextLinked : Bool) (l : LRU K V) (op : Op K V) (hwf : l.WF)
    (hord : l.Ordered op.time) (hc : 1 ≤ l.capacity) (hp : 0 < l.keepPeriod)
    (hno : nextLinked = true ∨ ∀ key ∈ l.keys, key ∈ (l.step nextLinked op).keys) :
    (l.step nextLinked op).Len ≤ l.capacity ∨
    ∀ pair ∈ (l.step nextLinked op).om, op.time - pair.2.timestamp ≤ l.keepPeriod := by
  unfold LRU.WF LRU.keys at hwf
  unfold LRU.keys at hno
  unfold LRU.Len
  cases op with
  | get now key =>
    change l.Ordered now at hord
    change nextLinked = true ∨ ∀ k ∈ l.om.map Prod.fst,
      k ∈ (l.Get nextLinked now key).2.om.map Prod.fst at hno
    change ((l.Get nextLinked now key).2.om.length : Int) ≤ l.capacity ∨
      ∀ pair ∈ (l.Get nextLinked now key).2.om, now - pair.2.timestamp ≤ l.keepPeriod
    have hl : l.lookupState nextLinked now = l.prune nextLinked now := by
      simp [LRU.lookupState, hp]
    have hs := prune_om_suffix nextLinked l now
    have hsub : ∀ k ∈ (l.Get nextLinked now key).2.om.map Prod.fst,
        k ∈ (l.prune nextLinked now).om.map Prod.fst := by
      intro k hk
      cases hg : omGet key (l.lookupState nextLinked now).om with
      | none =>
        rw [Get_miss nextLinked l now key hg, hl] at hk
        exact hk
      | some tv =>
        rw [Get_hit nextLinked l now key hg, hl] at hk
        rw [hl] at hg
        simp only [keys_snoc, List.mem_append, List.mem_singleton] at hk
        rcases hk with hk | hk
        · rw [map_fst_omDelete] at hk
          exact (List.mem_filter.mp hk).1
        · rw [hk]
          exact List.mem_map_of_mem Prod.fst (omGet_mem hg)
    have hstop := prune_stop nextLinked l now hc hord.1
      (hno.imp id (fun h => suffix_eq_of_keys hwf hs (fun k hk => hsub k (h k hk))))
    cases hg : omGet key (l.lookupState nextLinked now).om with
    | none =>
      rw [Get_miss nextLinked l now key hg, hl]
      exact hstop.imp id (fun h => h.2)
    | some tv =>
      rw [Get_hit nextLinked l now key hg, hl]
      rw [hl] at hg
      rcases hstop with h1 | ⟨_, h2⟩
      · left
        have := omDelete_length_lt hg
        simp only [List.length_append, List.length_singleton, Nat.cast_add, Nat.cast_one]
        omega
      · right
        intro pair hpair
        simp only [List.mem_append, List.mem_singleton] at hpair
        rcases hpair with hpair | hpair
        · unfold omDelete at hpair
          exact h2 pair (List.mem_filter.mp hpair).1
        · rw [hpair]
          simp only
          omega
  | set now key value =>
    change l.Ordered now at hord
    change nextLinked = true ∨ ∀ k ∈ l.om.map Prod.fst,
      k ∈ (l.Set nextLinked now key value).2.om.map Prod.fst at hno
    change ((l.Set nextLinked now key value).2.om.length : Int) ≤ l.capacity ∨
      ∀ pair ∈ (l.Set nextLinked now key value).2.om, now - pair.2.timestamp ≤ l.keepPeriod
    rw [Set_snd] at hno ⊢
    have hw : omOrdered (omDelete key l.om ++ [(key, (⟨value, now⟩ : TimestampedValue V))]) now :=
      ordered_snoc (ordered_of_sublist hord (List.filter_sublist l.om)) key value
    have hnd : ((omDelete key l.om ++ [(key, (⟨value, now⟩ : TimestampedValue V))]).map
        Prod.fst).Nodup := nodup_keys_snoc _ hwf (List.suffix_refl _)
    have hs := prune_om_suffix nextLinked
      (LRU.mk l.capacity l.keepPeriod
        (omDelete key l.om ++ [(key, { value := value, timestamp := now })])) now
    have hstop := prune_stop nextLinked
      (LRU.mk l.capacity l.keepPeriod
        (omDelete key l.om ++ [(key, { value := value, timestamp := now })])) now hc hw.1
      (hno.imp id (fun h => suffix_eq_of_keys hnd hs (fun k hk => by
        simp only [keys_snoc, List.mem_append, List.mem_singleton] at hk
        rcases hk with hk | hk
        · rw [map_fst_omDelete] at hk
          exact h k (List.mem_filter.mp hk).1
        · obtain ⟨ys, _, heq⟩ := prune_snoc nextLinked l.capacity l.keepPeriod now
            (omDelete key l.om) (key, (⟨value, now⟩ : TimestampedValue V))
          rw [heq, keys_snoc, hk]
          simp)))
    exact hstop.imp id (fun h => h.2)

/-- Without a keep period the cache built by `New` never exceeds its capacity. -/
theorem new_run_length_le (nextLinked : Bool) (capacity keepPeriod : Int)
    (hc : 1 ≤ capacity) (hp : keepPeriod ≤ 0) (ops : List (Op K V)) :
    ((New capacity keepPeriod : LRU K V).run nextLinked ops).Len ≤ capacity :=
  run_length_le nextLinked ops (New capacity keepPeriod) hc hp (by simpa [New] using by omega)

/-- What one call deletes depends on `Next` of a deleted pair. With capacity 1 and keep
period 60, the read at time 3600 that ends `writesThenIdleRead` finds three entries
past their keep period: it deletes only the oldest one if `Next` of a deleted pair is
`nil`, and the two oldest ones if the loop goes on. -/
theorem idle_read_contents :
    ((New 1 60 : LRU Nat Nat).run false writesThenIdleRead).contents = [(2, 20), (3, 30)] ∧
    ((New 1 60 : LRU Nat Nat).run true writesThenIdleRead).contents = [(3, 30)] := by
  decide

/-! ## A cache without capacity -/

omit [DecidableEq K] [Inhabited V] in
theorem prune_of_capacity_le (nextLinked : Bool) (l : LRU K V) (timestamp : Int)
    (hc : l.capacity ≤ 0) : l.prune nextLinked timestamp = l := by
  unfold LRU.prune
  rw [if_neg (by omega)]

omit [DecidableEq K] [Inhabited V] in
theorem lookupState_of_capacity_le (nextLinked : Bool) (l : LRU K V) (now : Int)
    (hc : l.capacity ≤ 0) : l.lookupState nextLinked now = l := by
  unfold LRU.lookupState
  split
  · exact prune_of_capacity_le nextLinked l now hc
  · rfl

omit [Inhabited V] in
theorem mem_keys_moved (key other : K) (tv : TimestampedValue V) (om : OrderedMap K V) :
    other ∈ (omDelete key om ++ [(key, tv)]).map Prod.fst ↔
      other ∈ om.map Prod.fst ∨ other = key := by
  rw [keys_snoc, List.mem_append, List.mem_singleton, map_fst_omDelete, List.mem_filter]
  by_cases h : other = key
  · simp [h]
  · simp [h]

/-- Without a capacity a call removes no key and adds the key it writes, if any. -/
theorem step_keys_of_capacity_le (nextLinked : Bool) (l : LRU K V) (op : Op K V)
    (hc : l.capacity ≤ 0) (other : K) :
    other ∈ (l.step nextLinked op).keys ↔ other ∈ l.keys ∨ op.written = some other := by
  unfold LRU.keys
  cases op with
  | get now key =>
    change other ∈ (l.Get nextLinked now key).2.om.map Prod.fst ↔ _
    have hl := lookupState_of_capacity_le nextLinked l now hc
    cases hg : omGet key (l.lookupState nextLinked now).om with
    | none =>
      rw [Get_miss nextLinked l now key hg, hl]
      simp [Op.written]
    | some tv =>
      rw [Get_hit nextLinked l now key hg, hl]
      rw [hl] at hg
      simp only [mem_keys_moved, Op.written, reduceCtorEq, or_false]
      constructor
      · rintro (h | h)
        · exact h
        · rw [h]
          exact List.mem_map_of_mem Prod.fst (omGet_mem hg)
      · exact Or.inl
  | set now key value =>
    change other ∈ (l.Set nextLinked now key value).2.om.map Prod.fst ↔ _
    rw [Set_snd, prune_of_capacity_le nextLinked
      (LRU.mk l.capacity l.keepPeriod (omDelete key l.om ++ [(key, (⟨value, now⟩ : TimestampedValue V))]))
      now hc]
    simp only [mem_keys_moved, Op.written, Option.some.injEq]
    exact or_congr Iff.rfl eq_comm

theorem run_capacity (nextLinked : Bool) (ops : List (Op K V)) (l : LRU K V) :
    (l.run nextLinked ops).capacity = l.capacity := by
  induction ops generalizing l with
  | nil => rfl
  | cons op rest ih => exact (ih _).trans (step_capacity nextLinked l op)

theorem run_keepPeriod (nextLinked : Bool) (ops : List (Op K V)) (l : LRU K V) :
    (l.run nextLinked ops).keepPeriod = l.keepPeriod := by
  induction ops generalizing l with
  | nil => rfl
  | cons op rest ih => exact (ih _).trans (step_keepPeriod nextLinked l op)

theorem run_keys_of_capacity_le (nextLinked : Bool) (ops : List (Op K V)) (l : LRU K V)
    (hc : l.capacity ≤ 0) (other : K) :
    other ∈ (l.run nextLinked ops).keys ↔ other ∈ l.keys ∨ other ∈ setKeys ops := by
  induction ops generalizing l with
  | nil => simp [LRU.run, setKeys]
  | cons op rest ih =>
    have h := ih (l.step nextLinked op) (by rw [step_capacity]; exact hc)
    have h2 := step_keys_of_capacity_le nextLinked l op hc other
    change other ∈ ((l.step nextLinked op).run nextLinked rest).keys ↔ _
    rw [h, h2]
    unfold setKeys
    rw [List.filterMap_cons]
    cases hw : op.written with
    | none => simp
    | some w =>
      simp only [Option.some.injEq, List.mem_cons]
      constructor
      · rintro ((h | h) | h)
        · exact Or.inl h
        · exact Or.inr (Or.inl h.symm)
        · exact Or.inr (Or.inr h)
      · rintro (h | h | h)
        · exact Or.inl (Or.inl h)
        · exact Or.inl (Or.inr h.symm)
        · exact Or.inr h

/-! ## Writes of distinct keys without keep period -/

omit [DecidableEq K] [Inhabited V] in
theorem pruneLoop_of_length_le (nextLinked : Bool) {capacity : Int} (keepPeriod cutoff : Int)
    (om : OrderedMap K V) (h : (om.length : Int) ≤ capacity) :
    pruneLoop nextLinked capacity keepPeriod cutoff om = om := by
  cases om with
  | nil => rfl
  | cons pair rest =>
    unfold pruneLoop
    rw [if_neg (fun hcond => by omega)]

omit [DecidableEq K] [Inhabited V] in
theorem pruneLoop_cons_of_over (nextLinked : Bool) {capacity keepPeriod : Int}
    (hp : keepPeriod ≤ 0) (cutoff : Int) (pair : K × TimestampedValue V)
    (rest : OrderedMap K V) (h : (rest.length : Int) = capacity) :
    pruneLoop nextLinked capacity keepPeriod cutoff (pair :: rest) = rest := by
  unfold pruneLoop
  rw [if_pos ⟨by simp only [List.length_cons]; push_cast; omega, Or.inl hp⟩]
  cases nextLinked
  · rfl
  · simpa using pruneLoop_of_length_le true keepPeriod cutoff rest (le_of_eq h)

omit [DecidableEq K] [Inhabited V] in
theorem tail_eq_drop {α : Type} (a : List α) (n : Nat) : tail a n = a.drop (a.length - n) := by
  unfold tail
  split
  · rename_i h
    have : a.length - n = 0 := by omega
    rw [this, List.drop_zero]
  · rfl

theorem run_append (nextLinked : Bool) (l : LRU K V) (xs ys : List (Op K V)) :
    l.run nextLinked (xs ++ ys) = (l.run nextLinked xs).run nextLinked ys := by
  simp [LRU.run, List.foldl_append]

theorem results_append (nextLinked : Bool) (l : LRU K V) (xs ys : List (Op K V)) :
    l.results nextLinked (xs ++ ys)
      = l.results nextLinked xs ++ (l.run nextLinked xs).results nextLinked ys := by
  induction xs generalizing l with
  | nil => rfl
  | cons op rest ih =>
    show l.stepResult nextLinked op :: (l.step nextLinked op).results nextLinked (rest ++ ys)
      = (l.stepResult nextLinked op :: (l.step nextLinked op).results nextLinked rest)
        ++ ((l.step nextLinked op).run nextLinked rest).results nextLinked ys
    rw [ih, List.cons_append]

/-- The state after writing pairwise distinct keys to a fresh cache without keep period:
the last `capacity` writes, oldest first, each with its value and its time. -/
theorem om_after_writes (nextLinked : Bool) (capacity keepPeriod : Int) (hc : 1 ≤ capacity)
    (hp : keepPeriod ≤ 0) (writes : List (Int × K × V))
    (hnd : (writes.map (fun w => w.2.1)).Nodup) :
    ((New capacity keepPeriod : LRU K V).run nextLinked (writesOf writes)).om
      = (tail writes capacity.toNat).map
          (fun w => (w.2.1, (⟨w.2.2, w.1⟩ : TimestampedValue V))) := by
  induction writes using List.reverseRecOn with
  | nil => simp [writesOf, LRU.run, New, tail]
  | append_singleton ws w ih =>
    rw [List.map_append, List.nodup_append] at hnd
    have ih2 := ih hnd.1
    have hfresh : w.2.1 ∉ ws.map (fun x => x.2.1) := by
      intro hmem
      exact hnd.2.2 hmem (by simp)
    have hrun : (New capacity keepPeriod : LRU K V).run nextLinked (writesOf (ws ++ [w]))
        = (((New capacity keepPeriod : LRU K V).run nextLinked (writesOf ws)).Set nextLinked
            w.1 w.2.1 w.2.2).2 := by
      unfold writesOf
      rw [List.map_append, run_append]
      rfl
    have hcap := run_capacity nextLinked (writesOf ws) (New capacity keepPeriod : LRU K V)
    have hkeep := run_keepPeriod nextLinked (writesOf ws) (New capacity keepPeriod : LRU K V)
    have habsent : omGet w.2.1
        ((New capacity keepPeriod : LRU K V).run nextLinked (writesOf ws)).om = none := by
      rw [omGet_eq_none_iff, ih2, List.map_map]
      intro hmem
      obtain ⟨x, hx, hxk⟩ := List.mem_map.mp hmem
      rw [tail_eq_drop] at hx
      exact hfresh (List.mem_map.mpr ⟨x, List.mem_of_mem_drop hx, hxk⟩)
    rw [hrun, Set_snd, omDelete_of_absent habsent, ih2]
    unfold LRU.prune
    simp only [hcap, hkeep]
    have hpos : (New capacity keepPeriod : LRU K V).capacity > 0 := by
      show capacity > 0
      omega
    rw [if_pos hpos]
    show pruneLoop nextLinked capacity keepPeriod _ _ = _
    rw [tail_eq_drop, tail_eq_drop]
    have hct : ((capacity.toNat : Nat) : Int) = capacity := Int.toNat_of_nonneg (by omega)
    by_cases hlen : ws.length < capacity.toNat
    · have e1 : ws.length - capacity.toNat = 0 := by omega
      have e2 : (ws ++ [w]).length - capacity.toNat = 0 := by
        rw [List.length_append, List.length_singleton]
        omega
      rw [e1, e2, List.drop_zero, List.drop_zero, List.map_append]
      apply pruneLoop_of_length_le
      simp only [List.length_append, List.length_map, List.length_singleton, List.map_cons,
        List.map_nil, List.length_cons, List.length_nil]
      push_cast
      omega
    · have e2 : (ws ++ [w]).length - capacity.toNat = (ws.length - capacity.toNat) + 1 := by
        rw [List.length_append, List.length_singleton]
        omega
      have hle : ws.length - capacity.toNat + 1 ≤ ws.length := by omega
      rw [e2, List.drop_append_of_le_length hle, List.map_append]
      have hsplit : List.drop (ws.length - capacity.toNat) ws
          = (List.drop (ws.length - capacity.toNat) ws).head?.toList
            ++ List.drop (ws.length - capacity.toNat + 1) ws := by
        rw [← List.tail_drop]
        cases List.drop (ws.length - capacity.toNat) ws <;> rfl
      have hne : ∃ first, (List.drop (ws.length - capacity.toNat) ws).head? = some first := by
        cases hd : List.drop (ws.length - capacity.toNat) ws with
        | nil =>
          have := congrArg List.length hd
          rw [List.length_drop] at this
          simp only [List.length_nil] at this
          omega
        | cons first rest => exact ⟨first, rfl⟩
      obtain ⟨first, hfirst⟩ := hne
      rw [hsplit, hfirst]
      simp only [Option.toList, List.singleton_append, List.map_cons, List.cons_append]
      apply pruneLoop_cons_of_over nextLinked hp
      simp only [List.length_append, List.length_map, List.length_drop, List.map_nil,
        List.length_cons, List.length_nil]
      omega

theorem results_writes (nextLinked : Bool) (capacity keepPeriod : Int) (hc : 1 ≤ capacity)
    (hp : keepPeriod ≤ 0) (writes : List (Int × K × V))
    (hnd : (writes.map (fun w => w.2.1)).Nodup) :
    (New capacity keepPeriod : LRU K V).results nextLinked (writesOf writes)
      = List.replicate writes.length (default, false) := by
  induction writes using List.reverseRecOn with
  | nil => rfl
  | append_singleton ws w ih =>
    rw [List.map_append, List.nodup_append] at hnd
    have hfresh : w.2.1 ∉ ws.map (fun x => x.2.1) := by
      intro hmem
      exact hnd.2.2 hmem (by simp)
    have habsent : omGet w.2.1
        ((New capacity keepPeriod : LRU K V).run nextLinked (writesOf ws)).om = none := by
      rw [omGet_eq_none_iff, om_after_writes nextLinked capacity keepPeriod hc hp ws hnd.1,
        List.map_map]
      intro hmem
      obtain ⟨x, hx, hxk⟩ := List.mem_map.mp hmem
      rw [tail_eq_drop] at hx
      exact hfresh (List.mem_map.mpr ⟨x, List.mem_of_mem_drop hx, hxk⟩)
    have hlast : ((New capacity keepPeriod : LRU K V).run nextLinked (writesOf ws)).results
        nextLinked (writesOf [w]) = [(default, false)] := by
      show [(((New capacity keepPeriod : LRU K V).run nextLinked (writesOf ws)).Set nextLinked
        w.1 w.2.1 w.2.2).1] = _
      rw [Set_fst, habsent]
    have hsplit : writesOf (ws ++ [w]) = writesOf ws ++ writesOf [w] := by
      simp [writesOf]
    rw [hsplit, results_append, ih hnd.1, hlast, List.length_append, List.length_singleton,
      List.replicate_succ']

/-! ## The end of the pruning loop -/

omit [DecidableEq K] [Inhabited V] in
/-- When the loop of `prune` goes on after a deletion, it ends on its stop condition. -/
theorem prune_stopped_of_linked (l : LRU K V) (T : Int) (hc : 1 ≤ l.capacity) :
    PruneStopped (l.prune true T) T := by
  unfold PruneStopped LRU.Len
  rw [prune_capacity, prune_keepPeriod]
  unfold LRU.prune
  rw [if_pos (by omega)]
  rcases pruneLoop_stop true (by omega : (0 : Int) ≤ l.capacity) l.keepPeriod
    (T + -l.keepPeriod) l.om (Or.inl rfl) with h | ⟨h1, h2⟩
  · exact Or.inl h
  · refine Or.inr ⟨h1, ?_⟩
    intro pair hpair
    have := h2 pair hpair
    omega

omit [DecidableEq K] [Inhabited V] in
theorem exists_time_bound (ops : List (Op K V)) : ∃ t, ∀ op ∈ ops, op.time ≤ t := by
  induction ops with
  | nil => exact ⟨0, by simp⟩
  | cons op rest ih =>
    obtain ⟨t, ht⟩ := ih
    refine ⟨max op.time t, ?_⟩
    intro o ho
    rcases List.mem_cons.mp ho with h | h
    · rw [h]
      exact le_max_left _ _
    · exact le_trans (ht o h) (le_max_right _ _)

/-! ## Entry counts -/

omit [Inhabited V] in
/-- Moving a stored key to the back keeps the number of pairs. -/
theorem omDelete_length_of_nodup {key : K} {om : OrderedMap K V} {tv : TimestampedValue V}
    (hnd : (om.map Prod.fst).Nodup) (h : omGet key om = some tv) :
    (omDelete key om).length + 1 = om.length := by
  induction om with
  | nil => simp [omGet] at h
  | cons pair rest ih =>
    rw [List.map_cons, List.nodup_cons] at hnd
    rw [omDelete_cons]
    by_cases hk : pair.1 = key
    · rw [if_pos hk]
      have habsent : omGet key rest = none := by
        rw [omGet_eq_none_iff, ← hk]
        exact hnd.1
      rw [omDelete_of_absent habsent, List.length_cons]
    · rw [if_neg hk]
      have hrest : omGet key rest = some tv := by simpa [omGet, hk] using h
      rw [List.length_cons, List.length_cons, ih hnd.2 hrest]

omit [Inhabited V] in
theorem omDelete_moved (key : K) (tv : TimestampedValue V) (om : OrderedMap K V) :
    omDelete key (omDelete key om ++ [(key, tv)]) = omDelete key om := by
  unfold omDelete
  rw [List.filter_append, List.filter_filter]
  simp

omit [DecidableEq K] [Inhabited V] in
/-- The loop of `prune` deletes nothing, or leaves at least `capacity` pairs. -/
theorem pruneLoop_eq_or_length_ge (nextLinked : Bool) (capacity keepPeriod cutoff : Int)
    (om : OrderedMap K V) :
    pruneLoop nextLinked capacity keepPeriod cutoff om = om ∨
    (capacity ≤ ((pruneLoop nextLinked capacity keepPeriod cutoff om).length : Int) ∧
      (pruneLoop nextLinked capacity keepPeriod cutoff om).length < om.length) := by
  induction om with
  | nil => exact Or.inl rfl
  | cons pair rest ih =>
    unfold pruneLoop
    split
    · rename_i hcond
      have hlen := hcond.1
      simp only [List.length_cons, Nat.cast_add, Nat.cast_one] at hlen
      right
      cases nextLinked
      · simp only [Bool.false_eq_true, if_false, List.length_cons]
        constructor <;> omega
      · simp only [if_true, List.length_cons]
        rcases ih with h | ⟨h1, h2⟩
        · rw [h]
          constructor <;> omega
        · constructor <;> omega
    · exact Or.inl rfl

omit [DecidableEq K] [Inhabited V] in
theorem prune_eq_or_length_ge (nextLinked : Bool) (l : LRU K V) (timestamp : Int) :
    (l.prune nextLinked timestamp).om = l.om ∨
    (l.capacity ≤ ((l.prune nextLinked timestamp).om.length : Int) ∧
      (l.prune nextLinked timestamp).om.length < l.om.length) := by
  unfold LRU.prune
  split
  · exact pruneLoop_eq_or_length_ge nextLinked _ _ _ _
  · exact Or.inl rfl

omit [DecidableEq K] [Inhabited V] in
theorem lookupState_eq_or_length_ge (nextLinked : Bool) (l : LRU K V) (now : Int) :
    (l.lookupState nextLinked now).om = l.om ∨
    (l.capacity ≤ ((l.lookupState nextLinked now).om.length : Int) ∧
      (l.lookupState nextLinked now).om.length < l.om.length) := by
  unfold LRU.lookupState
  split
  · exact prune_eq_or_length_ge nextLinked l now
  · exact Or.inl rfl

/-- The keys after a `Get` are the keys of the state in which the key is looked up. -/
theorem Get_keys_iff (nextLinked : Bool) (l : LRU K V) (now : Int) (key other : K) :
    other ∈ (l.Get nextLinked now key).2.om.map Prod.fst ↔
      other ∈ (l.lookupState nextLinked now).om.map Prod.fst := by
  cases hg : omGet key (l.lookupState nextLinked now).om with
  | none => rw [Get_miss nextLinked l now key hg]
  | some tv =>
    rw [Get_hit nextLinked l now key hg]
    simp only [mem_keys_moved]
    constructor
    · rintro (h | h)
      · exact h
      · rw [h]
        exact List.mem_map_of_mem Prod.fst (omGet_mem hg)
    · exact Or.inl

/-- The entry count after a `Get` is the entry count of the state in which the key is
looked up. -/
theorem Get_length_eq (nextLinked : Bool) (l : LRU K V) (hwf : l.WF) (now : Int) (key : K) :
    (l.Get nextLinked now key).2.om.length = (l.lookupState nextLinked now).om.length := by
  have hnd : ((l.lookupState nextLinked now).om.map Prod.fst).Nodup :=
    List.Nodup.sublist ((List.IsSuffix.map Prod.fst
      (lookupState_om_suffix nextLinked l now)).sublist) hwf
  cases hg : omGet key (l.lookupState nextLinked now).om with
  | none => rw [Get_miss nextLinked l now key hg]
  | some tv =>
    rw [Get_hit nextLinked l now key hg]
    simp only [List.length_append, List.length_singleton]
    exact omDelete_length_of_nodup hnd hg

end effects

end lemmas

/-! ## The claims of the specification -/

section claims

variable [DecidableEq K] [Inhabited V]

/-- C1: hard cap without keep period. For every capacity of at least 1 and every keep
period that is zero or negative, the cache built by `New` holds at most `capacity`
entries after any finite sequence of `Get` and `Set` calls, whatever the keys, values
and clock readings (every prefix of a sequence is a sequence, so this holds after every
call). -/
theorem C1_len_le_capacity (nextLinked : Bool) (capacity keepPeriod : Int)
    (hc : 1 ≤ capacity) (hp : keepPeriod ≤ 0) (ops : List (Op K V)) :
    ((New capacity keepPeriod : LRU K V).run nextLinked ops).Len ≤ capacity :=
  new_run_length_le nextLinked capacity keepPeriod hc hp ops

theorem C1_len_le_capacity_witness :
    (1 : Int) ≤ 3 ∧ (0 : Int) ≤ 0 ∧ ((New 3 0 : LRU Nat Nat).run false tenWrites).Len ≤ 3 :=
  ⟨by decide, by decide, C1_len_le_capacity false 3 0 (by decide) (by decide) tenWrites⟩

/-- C2: keep-period protection. With a positive keep period, a `Get` or a `Set` made at
time `now` removes no key whose stored timestamp `t` satisfies `now < t + keepPeriod`,
whatever the capacity. The stored timestamp of a key is the time of the last `Set` or
successful `Get` of that key: `Set` stores its own clock reading, a successful `Get`
too, and a call leaves the timestamp (and value) of every other stored key as it was. -/
theorem C2_keep_period_protection (nextLinked : Bool) (l : LRU K V) (hwf : l.WF)
    (hp : 0 < l.keepPeriod) (op : Op K V) :
    (∀ key tv, omGet key l.om = some tv → op.time < tv.timestamp + l.keepPeriod →
        (omGet key (l.step nextLinked op).om).isSome = true) ∧
    (∀ now key value, op = Op.set now key value →
        omGet key (l.step nextLinked op).om = some { value := value, timestamp := now }) ∧
    (∀ now key, op = Op.get now key → (l.Get nextLinked now key).1.2 = true →
        omGet key (l.step nextLinked op).om
          = some { value := (l.Get nextLinked now key).1.1, timestamp := now }) ∧
    (∀ key tv, key ≠ op.key → omGet key (l.step nextLinked op).om = some tv →
        omGet key l.om = some tv) := by
  refine ⟨?_, ?_, ?_, ?_⟩
  · intro key tv hget hts
    cases op with
    | get now k =>
      change now < _ at hts
      change (omGet key (l.Get nextLinked now k).2.om).isSome = true
      have hl : l.lookupState nextLinked now = l.prune nextLinked now := by
        simp [LRU.lookupState, hp]
      have hkept : omGet key (l.lookupState nextLinked now).om = some tv := by
        rw [hl]
        exact prune_protected nextLinked l now hp hget hts
      cases hg : omGet k (l.lookupState nextLinked now).om with
      | none => rw [Get_miss nextLinked l now k hg, hkept]; rfl
      | some old =>
        rw [Get_hit nextLinked l now k hg]
        by_cases hk : key = k
        · subst hk
          simp [omGet_snoc_self (omGet_omDelete_self key _)]
        · simp [omGet_snoc_ne hk, omGet_omDelete_ne hk, hkept]
    | set now k value =>
      change now < _ at hts
      change (omGet key (l.Set nextLinked now k value).2.om).isSome = true
      rw [Set_snd]
      by_cases hk : key = k
      · subst hk
        rw [prune_protected nextLinked
          { l with om := omDelete key l.om ++ [(key, { value := value, timestamp := now })] }
          now hp (omGet_snoc_self (omGet_omDelete_self key _) _) (by simpa using hp)]
        rfl
      · rw [prune_protected nextLinked
          { l with om := omDelete k l.om ++ [(k, { value := value, timestamp := now })] }
          now hp (by rw [omGet_snoc_ne hk, omGet_omDelete_ne hk]; exact hget) hts]
        rfl
  · intro now key value hop
    subst hop
    obtain ⟨ys, hys, heq⟩ := Set_om nextLinked l now key value
    change omGet key (l.Set nextLinked now key value).2.om = _
    rw [heq]
    exact omGet_snoc_self (omGet_of_suffix_omDelete hys) _
  · intro now key hop hpres
    subst hop
    obtain ⟨tv, hg⟩ := (Get_present_iff nextLinked l now key).mp hpres
    change omGet key (l.Get nextLinked now key).2.om = _
    rw [Get_hit nextLinked l now key hg]
    exact omGet_snoc_self (omGet_omDelete_self key _) _
  · intro key tv hne hget
    exact omGet_of_mem_nodup hwf (mem_of_mem_step nextLinked l op hne (omGet_mem hget))

theorem C2_keep_period_protection_witness :
    (∀ key tv, omGet key twoProtected.om = some tv →
        (Op.get 30 3 : Op Nat Nat).time < tv.timestamp + twoProtected.keepPeriod →
        (omGet key (twoProtected.step false (Op.get 30 3)).om).isSome = true) ∧
    (∀ now key value, (Op.get 30 3 : Op Nat Nat) = Op.set now key value →
        omGet key (twoProtected.step false (Op.get 30 3)).om
          = some { value := value, timestamp := now }) ∧
    (∀ now key, (Op.get 30 3 : Op Nat Nat) = Op.get now key →
        (twoProtected.Get false now key).1.2 = true →
        omGet key (twoProtected.step false (Op.get 30 3)).om
          = some { value := (twoProtected.Get false now key).1.1, timestamp := now }) ∧
    (∀ key tv, key ≠ (Op.get 30 3 : Op Nat Nat).key →
        omGet key (twoProtected.step false (Op.get 30 3)).om = some tv →
        omGet key twoProtected.om = some tv) :=
  C2_keep_period_protection false twoProtected (by unfold LRU.WF; decide) (by decide)
    (Op.get 30 3)

/-- C3: the return value of `Set`. If the key is stored with value `u` right before the
call, `Set` returns `(u, true)`; if the key is not stored, `Set` returns the zero value
and `false`. -/
theorem C3_set_returns_previous (nextLinked : Bool) (l : LRU K V) (now : Int) (key : K)
    (value : V) :
    (∀ old, omGet key l.om = some old →
        (l.Set nextLinked now key value).1 = (old.value, true)) ∧
    (omGet key l.om = none → (l.Set nextLinked now key value).1 = (default, false)) := by
  constructor
  · intro old h
    rw [Set_fst, h]
  · intro h
    rw [Set_fst, h]

/-- C4: `Set` should return what `Get` would have returned on the same prior state at
the same observed time (the comment above `Set` says so). It does not in the state
`twoProtected` at time 3600: key 1 is stored with value 10 and `Set` returns
`(10, true)`, while `Get` first prunes key 1, whose keep period has elapsed, and
returns `(0, false)`. The state is reached from `New(1, 60)` by two writes, and the
two results differ whether or not the loop of `prune` goes on after a deletion. -/
theorem C4_set_get_disagree :
    twoProtected = (New 1 60 : LRU Nat Nat).run false [Op.set 0 1 10, Op.set 1 2 20] ∧
    twoProtected = (New 1 60 : LRU Nat Nat).run true [Op.set 0 1 10, Op.set 1 2 20] ∧
    (twoProtected.Set false 3600 1 99).1 = (10, true) ∧
    (twoProtected.Get false 3600 1).1 = (0, false) ∧
    (twoProtected.Set true 3600 1 99).1 = (10, true) ∧
    (twoProtected.Get true 3600 1).1 = (0, false) := by
  decide

/-- C5: `Get` of a key that is not stored returns the zero value and `false`; the state
after the call is the state the pruning routine alone produces at the observed time
when there is a keep period, and the prior state when there is none. -/
theorem C5_get_absent (nextLinked : Bool) (l : LRU K V) (now : Int) (key : K)
    (habsent : omGet key l.om = none) :
    (l.Get nextLinked now key).1 = (default, false) ∧
    (0 < l.keepPeriod → (l.Get nextLinked now key).2 = l.prune nextLinked now) ∧
    (l.keepPeriod ≤ 0 → (l.Get nextLinked now key).2 = l) := by
  have hnone : omGet key (l.lookupState nextLinked now).om = none :=
    omGet_none_of_suffix (lookupState_om_suffix nextLinked l now) habsent
  rw [Get_miss nextLinked l now key hnone]
  refine ⟨rfl, ?_, ?_⟩
  · intro hp
    simp [LRU.lookupState, hp]
  · intro hp
    have : ¬ l.keepPeriod > 0 := by omega
    simp [LRU.lookupState, this]

theorem C5_get_absent_witness :
    (twoProtected.Get false 3600 3).1 = (default, false) ∧
    (0 < twoProtected.keepPeriod →
      (twoProtected.Get false 3600 3).2 = twoProtected.prune false 3600) ∧
    (twoProtected.keepPeriod ≤ 0 → (twoProtected.Get false 3600 3).2 = twoProtected) :=
  C5_get_absent false twoProtected 3600 3 (by decide)

/-- C6: recency order. After a `Get` that returns `present = true`, and after every
`Set`, the accessed key is the last (newest) key of the oldest-to-newest order, and the
other keys that are still stored are in the same relative order as before the call.
In particular `Set(a)`, `Set(b)`, `Get(a)` on a fresh cache with room for both keys
(capacity at least 2, or no capacity limit) leaves the order `[b, a]`. -/
theorem C6_recency_order (nextLinked : Bool) (l : LRU K V) (hwf : l.WF) :
    (∀ now key, (l.Get nextLinked now key).1.2 = true →
      (l.Get nextLinked now key).2.keys.getLast? = some key ∧
      (l.Get nextLinked now key).2.keys.filter (fun x => decide (x ≠ key))
        = l.keys.filter
            (fun x => decide (x ≠ key ∧ x ∈ (l.Get nextLinked now key).2.keys))) ∧
    (∀ now key value,
      (l.Set nextLinked now key value).2.keys.getLast? = some key ∧
      (l.Set nextLinked now key value).2.keys.filter (fun x => decide (x ≠ key))
        = l.keys.filter
            (fun x => decide (x ≠ key ∧ x ∈ (l.Set nextLinked now key value).2.keys))) ∧
    (∀ (capacity keepPeriod t1 t2 t3 : Int) (a b : K) (va vb : V), a ≠ b →
      (2 ≤ capacity ∨ capacity ≤ 0) →
      ((New capacity keepPeriod : LRU K V).run nextLinked
        [Op.set t1 a va, Op.set t2 b vb, Op.get t3 a]).keys = [b, a]) := by
  refine ⟨?_, ?_, ?_⟩
  · intro now key hpres
    obtain ⟨ys, hys, heq⟩ := Get_om_of_present nextLinked l now key hpres
    have hT : ys.map Prod.fst <:+ l.keys.filter (fun x => decide (x ≠ key)) := by
      have := List.IsSuffix.map Prod.fst hys
      rwa [map_fst_omDelete] at this
    have hk : (l.Get nextLinked now key).2.keys = ys.map Prod.fst ++ [key] := by
      unfold LRU.keys
      rw [heq]
      simp
    rw [hk]
    exact keys_order hwf hT
  · intro now key value
    obtain ⟨ys, hys, heq⟩ := Set_om nextLinked l now key value
    have hT : ys.map Prod.fst <:+ l.keys.filter (fun x => decide (x ≠ key)) := by
      have := List.IsSuffix.map Prod.fst hys
      rwa [map_fst_omDelete] at this
    have hk : (l.Set nextLinked now key value).2.keys = ys.map Prod.fst ++ [key] := by
      unfold LRU.keys
      rw [heq]
      simp
    rw [hk]
    exact keys_order hwf hT
  · intro capacity keepPeriod t1 t2 t3 a b va vb hab hcap
    have hba : ¬ b = a := fun e => hab e.symm
    have h1 : ¬ ((1 : Int) > capacity ∧ 0 < capacity) := by omega
    have h2 : ¬ ((2 : Int) > capacity ∧ 0 < capacity) := by omega
    have e1 : ((New capacity keepPeriod : LRU K V).Set nextLinked t1 a va).2
        = LRU.mk capacity keepPeriod [(a, ⟨va, t1⟩)] := by
      rw [Set_snd]
      unfold LRU.prune
      by_cases hc : capacity > 0
      · have : ¬ ((1 : Int) > capacity) := by omega
        simp [New, omDelete, hc, pruneLoop, this]
      · simp [New, omDelete, hc]
    have e2 : (LRU.Set nextLinked (LRU.mk capacity keepPeriod [(a, ⟨va, t1⟩)]) t2 b vb).2
        = LRU.mk capacity keepPeriod [(a, ⟨va, t1⟩), (b, ⟨vb, t2⟩)] := by
      rw [Set_snd]
      unfold LRU.prune
      by_cases hc : capacity > 0
      · simp only [omDelete, hc, pruneLoop, hab, if_true, ne_eq, not_false_eq_true,
          decide_True, List.filter_cons_of_pos, List.filter_nil, List.singleton_append,
          List.length_cons, List.length_nil]
        rw [if_neg (by intro h; have := h.1; push_cast at this; omega)]
      · simp [omDelete, hc, hab]
    have e3 : (LRU.lookupState nextLinked
        (LRU.mk capacity keepPeriod [(a, ⟨va, t1⟩), (b, ⟨vb, t2⟩)]) t3).om
        = [(a, ⟨va, t1⟩), (b, ⟨vb, t2⟩)] := by
      unfold LRU.lookupState LRU.prune
      by_cases hc : capacity > 0
      · by_cases hk : keepPeriod > 0
        · simp only [hc, hk, pruneLoop, if_true, List.length_cons, List.length_nil]
          rw [if_neg (by intro h; have := h.1; push_cast at this; omega)]
        · simp [hc, hk]
      · by_cases hk : keepPeriod > 0 <;> simp [hc, hk]
    show (LRU.Get nextLinked (LRU.Set nextLinked
      ((New capacity keepPeriod : LRU K V).Set nextLinked t1 a va).2 t2 b vb).2 t3 a).2.keys = [b, a]
    rw [e1, e2]
    have hg : omGet a (LRU.lookupState nextLinked
        (LRU.mk capacity keepPeriod [(a, ⟨va, t1⟩), (b, ⟨vb, t2⟩)]) t3).om
        = some ⟨va, t1⟩ := by
      rw [e3]
      simp [omGet]
    rw [Get_hit nextLinked _ t3 a hg]
    simp only [LRU.keys]
    rw [e3]
    simp [omDelete, hba]

theorem C6_recency_order_witness :
    (∀ now key, (twoProtected.Get false now key).1.2 = true →
      (twoProtected.Get false now key).2.keys.getLast? = some key ∧
      (twoProtected.Get false now key).2.keys.filter (fun x => decide (x ≠ key))
        = twoProtected.keys.filter
            (fun x => decide (x ≠ key ∧ x ∈ (twoProtected.Get false now key).2.keys))) ∧
    (∀ now key value,
      (twoProtected.Set false now key value).2.keys.getLast? = some key ∧
      (twoProtected.Set false now key value).2.keys.filter (fun x => decide (x ≠ key))
        = twoProtected.keys.filter
            (fun x => decide (x ≠ key ∧ x ∈ (twoProtected.Set false now key value).2.keys))) ∧
    (∀ (capacity keepPeriod t1 t2 t3 : Int) (a b : Nat) (va vb : Nat), a ≠ b →
      (2 ≤ capacity ∨ capacity ≤ 0) →
      ((New capacity keepPeriod : LRU Nat Nat).run false
        [Op.set t1 a va, Op.set t2 b vb, Op.get t3 a]).keys = [b, a]) :=
  C6_recency_order false twoProtected (by unfold LRU.WF; decide)

/-- C7: least-recently-used eviction order. The entries the pruning routine removes
form a prefix of the oldest-to-newest order. For a `Get`, the prior order splits into
an evicted prefix and a kept suffix (the pruned state in which the key is looked up),
and the entries stored after the call under keys other than the accessed one are
those of the kept suffix, with their values, timestamps and order. For a `Set`, the
entries of the other keys split into an evicted prefix and a kept suffix, and the
state after the call is the kept suffix followed by the entry just written. -/
theorem C7_eviction_is_prefix (nextLinked : Bool) (l : LRU K V) :
    (∀ timestamp, ∃ evicted, l.om = evicted ++ (l.prune nextLinked timestamp).om) ∧
    (∀ now key, ∃ evicted kept, l.om = evicted ++ kept ∧
      kept = (l.lookupState nextLinked now).om ∧
      omDelete key (l.Get nextLinked now key).2.om = omDelete key kept) ∧
    (∀ now key value, ∃ evicted kept, omDelete key l.om = evicted ++ kept ∧
      (l.Set nextLinked now key value).2.om
        = kept ++ [(key, { value := value, timestamp := now })]) := by
  refine ⟨?_, ?_, ?_⟩
  · intro timestamp
    obtain ⟨evicted, h⟩ := prune_om_suffix nextLinked l timestamp
    exact ⟨evicted, h.symm⟩
  · intro now key
    obtain ⟨evicted, h⟩ := lookupState_om_suffix nextLinked l now
    refine ⟨evicted, _, h.symm, rfl, ?_⟩
    cases hg : omGet key (l.lookupState nextLinked now).om with
    | none => rw [Get_miss nextLinked l now key hg]
    | some tv =>
      rw [Get_hit nextLinked l now key hg]
      simp [omDelete, List.filter_append, List.filter_filter]
  · intro now key value
    obtain ⟨ys, ⟨evicted, h⟩, heq⟩ := Set_om nextLinked l now key value
    exact ⟨evicted, ys, h.symm, heq⟩

/-- C8, as the specification states it, fails: with capacity 1 and keep period 10, after
a write at time 0 and a write of another key at time 10 (non-decreasing clock readings)
the cache holds two entries, more than its capacity, and the age of the older one is
exactly the keep period, not less. `prune` keeps an entry unless its timestamp is
strictly before `now - keepPeriod`. It also fails, when `Next` of a deleted pair is
`nil`, after `writesThenIdleRead` with capacity 1 and keep period 60: the read at time
3600 deletes one of three entries and leaves two, both far past their keep period. -/
theorem C8_spec_invariant_fails :
    (1 : Int) ≤ 1 ∧ (boundaryWrites.map Op.time).Pairwise (fun s t => s ≤ t) ∧
    ¬ SpecInvariant ((New 1 10 : LRU Nat Nat).run false boundaryWrites) 10 ∧
    ¬ SpecInvariant ((New 1 10 : LRU Nat Nat).run true boundaryWrites) 10 ∧
    (writesThenIdleRead.map Op.time).Pairwise (fun s t => s ≤ t) ∧
    ¬ SpecInvariant ((New 1 60 : LRU Nat Nat).run false writesThenIdleRead) 3600 := by
  unfold SpecInvariant
  decide

/-- C8, amended: for every capacity of at least 1 and every keep period, in every state
reached from `New` by `Get` and `Set` calls with non-decreasing clock readings, at the
end of a call made at time `now` whose pruning removed no key (or of any call, if the
loop of `prune` goes on after a deletion), the entry count is at most the capacity or
every stored entry satisfies `now - timestamp ≤ keepPeriod`. -/
theorem C8_invariant_amended (nextLinked : Bool) (capacity keepPeriod : Int)
    (hc : 1 ≤ capacity) (ops : List (Op K V)) (op : Op K V)
    (hclock : ((ops ++ [op]).map Op.time).Pairwise (fun s t => s ≤ t))
    (hno : nextLinked = true ∨
      ∀ key ∈ ((New capacity keepPeriod : LRU K V).run nextLinked ops).keys,
        key ∈ ((New capacity keepPeriod : LRU K V).run nextLinked (ops ++ [op])).keys) :
    ((New capacity keepPeriod : LRU K V).run nextLinked (ops ++ [op])).Len ≤ capacity ∨
    ∀ pair ∈ ((New capacity keepPeriod : LRU K V).run nextLinked (ops ++ [op])).om,
      op.time - pair.2.timestamp ≤ keepPeriod := by
  by_cases hp : 0 < keepPeriod
  · have hrun : ∀ l : LRU K V, l.run nextLinked (ops ++ [op])
        = (l.run nextLinked ops).step nextLinked op := by
      intro l
      simp [LRU.run, List.foldl_append]
    have hcap : ∀ (os : List (Op K V)) (l : LRU K V),
        (l.run nextLinked os).capacity = l.capacity ∧
        (l.run nextLinked os).keepPeriod = l.keepPeriod := by
      intro os
      induction os with
      | nil => intro l; exact ⟨rfl, rfl⟩
      | cons o rest ih =>
        intro l
        have := ih (l.step nextLinked o)
        rw [step_capacity, step_keepPeriod] at this
        exact this
    rw [hrun] at hno ⊢
    rw [List.map_append, List.pairwise_append] at hclock
    have hnew : ∀ t, (New capacity keepPeriod : LRU K V).Ordered t := by
      intro t
      exact ⟨by simp [New], by simp [New]⟩
    have hord := run_ordered nextLinked ops (New capacity keepPeriod) op.time hclock.1
      (fun o ho => hclock.2.2 _ (List.mem_map_of_mem _ ho) _ (by simp))
      (fun o _ => hnew _) (hnew _)
    have hwf : ((New capacity keepPeriod : LRU K V).run nextLinked ops).WF :=
      run_WF nextLinked ops _ (by simp [LRU.WF, LRU.keys, New])
    have h := step_invariant nextLinked _ op hwf hord
      (by rw [(hcap ops _).1]; exact hc) (by rw [(hcap ops _).2]; exact hp) hno
    rw [(hcap ops _).1, (hcap ops _).2] at h
    exact h
  · exact Or.inl (new_run_length_le nextLinked capacity keepPeriod hc (by omega) (ops ++ [op]))

theorem C8_invariant_amended_witness :
    ((New 1 10 : LRU Nat Nat).run false ([Op.set 0 1 10] ++ [Op.set 10 2 20])).Len ≤ 1 ∨
    ∀ pair ∈ ((New 1 10 : LRU Nat Nat).run false ([Op.set 0 1 10] ++ [Op.set 10 2 20])).om,
      (Op.set 10 2 20 : Op Nat Nat).time - pair.2.timestamp ≤ 10 :=
  C8_invariant_amended false 1 10 (by decide) [Op.set 0 1 10] (Op.set 10 2 20)
    (by decide) (Or.inr (by decide))

/-- C9: write-then-read round trip. For every cache state, capacity, keep period, key,
value and pair of clock readings, `Get(k)` called right after `Set(k, v)` returns
`(v, true)`: the key just written is evicted neither by its own `Set` nor by the
pruning of the following `Get`. -/
theorem C9_set_then_get (nextLinked : Bool) (l : LRU K V) (now1 now2 : Int) (key : K)
    (value : V) :
    ((l.Set nextLinked now1 key value).2.Get nextLinked now2 key).1 = (value, true) := by
  obtain ⟨ys, hys, heq⟩ := Set_om nextLinked l now1 key value
  exact Get_of_newest nextLinked _ now2 heq (omGet_of_suffix_omDelete hys)

/-- C10: a repeated read is idempotent on the value. If `Get(k)` returns `(v, true)`,
a `Get(k)` made right after it, at any clock reading, returns `(v, true)` too; and a
`Get` changes the value of no key that is still stored after it: such a key was stored
before with the same value, and with the same timestamp unless it is the accessed
key. -/
theorem C10_get_idempotent (nextLinked : Bool) (l : LRU K V) (hwf : l.WF) (now : Int)
    (key : K) :
    (∀ v now2, (l.Get nextLinked now key).1 = (v, true) →
      ((l.Get nextLinked now key).2.Get nextLinked now2 key).1 = (v, true)) ∧
    (∀ other after, omGet other (l.Get nextLinked now key).2.om = some after →
      ∃ before, omGet other l.om = some before ∧ before.value = after.value ∧
        (other ≠ key → before = after)) := by
  constructor
  · intro v now2 hres
    have hpres : (l.Get nextLinked now key).1.2 = true := by rw [hres]
    obtain ⟨ys, hys, heq⟩ := Get_om_of_present nextLinked l now key hpres
    have hv : (l.Get nextLinked now key).1.1 = v := by rw [hres]
    rw [hv] at heq
    exact Get_of_newest nextLinked _ now2 heq (omGet_of_suffix_omDelete hys)
  · intro other after hafter
    by_cases hne : other = key
    · subst hne
      cases hg : omGet other (l.lookupState nextLinked now).om with
      | none =>
        rw [Get_miss nextLinked l now other hg] at hafter
        rw [hg] at hafter
        exact absurd hafter (by simp)
      | some tv =>
        rw [Get_hit nextLinked l now other hg] at hafter
        simp only at hafter
        rw [omGet_snoc_self (omGet_omDelete_self other _)] at hafter
        have hmem := (lookupState_om_suffix nextLinked l now).subset (omGet_mem hg)
        refine ⟨tv, omGet_of_mem_nodup hwf hmem, ?_, fun h => absurd rfl h⟩
        cases hafter
        rfl
    · have hmem := mem_of_mem_step nextLinked l (Op.get now key) hne (omGet_mem hafter)
      exact ⟨after, omGet_of_mem_nodup hwf hmem, rfl, fun _ => rfl⟩

theorem C10_get_idempotent_witness :
    (∀ v now2, (twoProtected.Get false 30 1).1 = (v, true) →
      ((twoProtected.Get false 30 1).2.Get false now2 1).1 = (v, true)) ∧
    (∀ other after, omGet other (twoProtected.Get false 30 1).2.om = some after →
      ∃ before, omGet other twoProtected.om = some before ∧ before.value = after.value ∧
        (other ≠ 1 → before = after)) :=
  C10_get_idempotent false twoProtected (by unfold LRU.WF; decide) 30 1

/-- C11: a capacity of zero or less disables eviction. Whatever the keep period, no
`Get` and no `Set` removes a key from a cache whose capacity is zero or negative; after
any sequence of calls on `New(capacity, keepPeriod)` the stored keys are exactly the
keys that were `Set`, each stored once, and `Len()` is the number of distinct keys that
were `Set`. -/
theorem C11_no_capacity_no_eviction (nextLinked : Bool) (capacity keepPeriod : Int)
    (hc : capacity ≤ 0) :
    (∀ (l : LRU K V) (op : Op K V), l.capacity = capacity → ∀ key ∈ l.keys,
      key ∈ (l.step nextLinked op).keys) ∧
    (∀ (ops : List (Op K V)) (key : K),
      key ∈ ((New capacity keepPeriod : LRU K V).run nextLinked ops).keys ↔
        key ∈ setKeys ops) ∧
    (∀ ops : List (Op K V),
      ((New capacity keepPeriod : LRU K V).run nextLinked ops).keys.Nodup ∧
      ((New capacity keepPeriod : LRU K V).run nextLinked ops).Len
        = ((setKeys ops).dedup.length : Int)) := by
  have hkeys : ∀ (ops : List (Op K V)) (key : K),
      key ∈ ((New capacity keepPeriod : LRU K V).run nextLinked ops).keys ↔
        key ∈ setKeys ops := by
    intro ops key
    rw [run_keys_of_capacity_le nextLinked ops (New capacity keepPeriod) hc key]
    simp [New, LRU.keys]
  refine ⟨?_, hkeys, ?_⟩
  · intro l op hl key hkey
    exact (step_keys_of_capacity_le nextLinked l op (by rw [hl]; exact hc) key).mpr
      (Or.inl hkey)
  · intro ops
    have hwf : ((New capacity keepPeriod : LRU K V).run nextLinked ops).WF :=
      run_WF nextLinked ops _ (by simp [LRU.WF, LRU.keys, New])
    refine ⟨hwf, ?_⟩
    have hperm := (List.perm_ext_iff_of_nodup hwf (List.nodup_dedup (setKeys ops))).mpr
      (fun key => by rw [hkeys ops key, List.mem_dedup])
    have hlen := hperm.length_eq
    unfold LRU.keys at hlen
    rw [List.length_map] at hlen
    unfold LRU.Len
    rw [hlen]

theorem C11_no_capacity_no_eviction_witness :
    (∀ (l : LRU Nat Nat) (op : Op Nat Nat), l.capacity = 0 → ∀ key ∈ l.keys,
      key ∈ (l.step false op).keys) ∧
    (∀ (ops : List (Op Nat Nat)) (key : Nat),
      key ∈ ((New 0 60 : LRU Nat Nat).run false ops).keys ↔ key ∈ setKeys ops) ∧
    (∀ ops : List (Op Nat Nat),
      ((New 0 60 : LRU Nat Nat).run false ops).keys.Nodup ∧
      ((New 0 60 : LRU Nat Nat).run false ops).Len = ((setKeys ops).dedup.length : Int)) :=
  C11_no_capacity_no_eviction false 0 60 (by decide)

/-- C12: sliding window without keep period. For every capacity of at least 1, every keep
period that is zero or negative and every list of writes of pairwise distinct keys made
in order to a fresh cache, every `Set` returns the zero value and `false`, and after the
first `j` writes the cache holds, oldest first, exactly the last `min(j, capacity)`
pairs written. In test `TestBasicUsageWithNoKeepPeriod` (capacity 3, keys 0 to 9, value
twice the key) the cache ends as `[7:14, 8:16, 9:18]`; then `Get(10)` returns
`(0, false)`, `Get(8)` returns `(16, true)` and leaves the order `[7, 9, 8]`, and
`Set(7, 99)` returns `(14, true)` and leaves `[9:18, 8:16, 7:99]`. -/
theorem C12_sliding_window (nextLinked : Bool) (capacity keepPeriod : Int)
    (hc : 1 ≤ capacity) (hp : keepPeriod ≤ 0) (writes : List (Int × K × V))
    (hnd : (writes.map (fun w => w.2.1)).Nodup) :
    (New capacity keepPeriod : LRU K V).results nextLinked (writesOf writes)
      = List.replicate writes.length (default, false) ∧
    (∀ j, ((New capacity keepPeriod : LRU K V).run nextLinked
        (writesOf (writes.take j))).contents
      = tail ((writes.take j).map (fun w => w.2)) capacity.toNat) ∧
    ((New 3 0 : LRU Nat Nat).run nextLinked (writesOf tenTriples)).contents
      = [(7, 14), (8, 16), (9, 18)] ∧
    (New 3 0 : LRU Nat Nat).results nextLinked noKeepScenario
      = List.replicate 10 (0, false) ++ [(0, false), (16, true), (14, true)] ∧
    ((New 3 0 : LRU Nat Nat).run nextLinked (noKeepScenario.take 12)).keys = [7, 9, 8] ∧
    ((New 3 0 : LRU Nat Nat).run nextLinked noKeepScenario).contents
      = [(9, 18), (8, 16), (7, 99)] := by
  refine ⟨results_writes nextLinked capacity keepPeriod hc hp writes hnd, ?_, ?_⟩
  · intro j
    have hnd2 : ((writes.take j).map (fun w => w.2.1)).Nodup :=
      hnd.sublist ((List.take_sublist j writes).map _)
    unfold LRU.contents
    rw [om_after_writes nextLinked capacity keepPeriod hc hp (writes.take j) hnd2,
      tail_eq_drop, tail_eq_drop, List.map_map, List.length_map, List.map_drop]
    rfl
  · cases nextLinked <;> decide

theorem C12_sliding_window_witness :
    (New 3 0 : LRU Nat Nat).results false (writesOf tenTriples)
      = List.replicate tenTriples.length (default, false) ∧
    (∀ j, ((New 3 0 : LRU Nat Nat).run false (writesOf (tenTriples.take j))).contents
      = tail ((tenTriples.take j).map (fun w => w.2)) (3 : Int).toNat) ∧
    ((New 3 0 : LRU Nat Nat).run false (writesOf tenTriples)).contents
      = [(7, 14), (8, 16), (9, 18)] ∧
    (New 3 0 : LRU Nat Nat).results false noKeepScenario
      = List.replicate 10 (0, false) ++ [(0, false), (16, true), (14, true)] ∧
    ((New 3 0 : LRU Nat Nat).run false (noKeepScenario.take 12)).keys = [7, 9, 8] ∧
    ((New 3 0 : LRU Nat Nat).run false noKeepScenario).contents
      = [(9, 18), (8, 16), (7, 99)] :=
  C12_sliding_window false 3 0 (by decide) (by decide) tenTriples (by decide)

/-- C13: the keep-period scenario of test `TestBasicUsageWithKeepPeriod`. On
`New(3, 3m30s)`, with `Set(i, 2 * i)` made at time `i + 1` minutes for `i` from 0 to 9,
every `Set` returns `(0, false)` and after the write of key `i` the cache holds, oldest
first, exactly the last `min(i + 1, 4)` pairs written, so `Len()` reaches 4, above the
capacity 3. A `Get(7)` at time 40 minutes then returns `(14, true)` and the cache holds
exactly `[8:16, 9:18, 7:14]`, in that order. -/
theorem C13_keep_period_scenario (nextLinked : Bool) :
    (New 3 (3 * minute + 30 * second) : LRU Nat Nat).results nextLinked keepScenario
      = List.replicate 10 (0, false) ++ [(14, true)] ∧
    (∀ i ∈ List.range 10,
      ((New 3 (3 * minute + 30 * second) : LRU Nat Nat).run nextLinked
        (writesOf (keepTriples.take (i + 1)))).contents
      = tail ((keepTriples.take (i + 1)).map (fun w => w.2)) 4) ∧
    ((New 3 (3 * minute + 30 * second) : LRU Nat Nat).run nextLinked
      (writesOf keepTriples)).Len = 4 ∧
    ((New 3 (3 * minute + 30 * second) : LRU Nat Nat).run nextLinked keepScenario).contents
      = [(8, 16), (9, 18), (7, 14)] := by
  cases nextLinked <;> decide

/-- C14: the pruning routine should run until its stop condition. It does not when
`Next` of a deleted pair is `nil`: with capacity 1 and a keep period of one minute,
after three keys written within two seconds, pruning one hour later deletes the oldest
entry only and leaves two entries, above the capacity, the oldest of which is strictly
before `T - keepPeriod`; the `Get` of an unrelated key made at that time leaves two
entries, not one. When the loop goes on after a deletion the same call leaves one
entry. -/
theorem C14_prune_stops_after_one_deletion :
    ((New 1 minute : LRU Nat Nat).run false threeWrites).contents
      = [(1, 10), (2, 20), (3, 30)] ∧
    (((New 1 minute : LRU Nat Nat).run false threeWrites).prune false (60 * minute)).contents
      = [(2, 20), (3, 30)] ∧
    ¬ PruneStopped (((New 1 minute : LRU Nat Nat).run false threeWrites).prune false
        (60 * minute)) (60 * minute) ∧
    ((New 1 minute : LRU Nat Nat).run false idleScenario).Len = 2 ∧
    ((New 1 minute : LRU Nat Nat).run true idleScenario).Len = 1 := by
  unfold PruneStopped
  decide

/-- C15: timestamps follow the recency order. In every state reached from `New` by `Get`
and `Set` calls whose clock readings do not decrease, the stored timestamps do not
decrease from the oldest to the newest entry; hence, wherever pruning with reference
time `T` stops at an entry that is not before `T - keepPeriod`, no later entry is
before `T - keepPeriod` either. -/
theorem C15_timestamps_follow_order (nextLinked : Bool) (capacity keepPeriod : Int)
    (ops : List (Op K V)) (hclock : (ops.map Op.time).Pairwise (fun s t => s ≤ t)) :
    (((New capacity keepPeriod : LRU K V).run nextLinked ops).om.map
      (fun pair => pair.2.timestamp)).Pairwise (fun s t => s ≤ t) ∧
    (∀ (T : Int) (evicted : OrderedMap K V) (pair : K × TimestampedValue V)
      (rest : OrderedMap K V),
      ((New capacity keepPeriod : LRU K V).run nextLinked ops).om = evicted ++ pair :: rest →
      ¬ pair.2.timestamp < T + -keepPeriod →
      ∀ later ∈ rest, ¬ later.2.timestamp < T + -keepPeriod) := by
  obtain ⟨t, ht⟩ := exists_time_bound ops
  have hnew : ∀ s, (New capacity keepPeriod : LRU K V).Ordered s := by
    intro s
    exact ⟨by simp [New], by simp [New]⟩
  have hord := (run_ordered nextLinked ops (New capacity keepPeriod) t hclock ht
    (fun o _ => hnew _) (hnew _)).1
  refine ⟨hord, ?_⟩
  intro T evicted pair rest hsplit hprot later hlater
  rw [hsplit, List.map_append, List.pairwise_append, List.map_cons, List.pairwise_cons] at hord
  have := hord.2.1.1 _ (List.mem_map_of_mem (fun pair => pair.2.timestamp) hlater)
  omega

theorem C15_timestamps_follow_order_witness :
    (((New 1 minute : LRU Nat Nat).run false idleScenario).om.map
      (fun pair => pair.2.timestamp)).Pairwise (fun s t => s ≤ t) ∧
    (∀ (T : Int) (evicted : OrderedMap Nat Nat) (pair : Nat × TimestampedValue Nat)
      (rest : OrderedMap Nat Nat),
      ((New 1 minute : LRU Nat Nat).run false idleScenario).om = evicted ++ pair :: rest →
      ¬ pair.2.timestamp < T + -minute →
      ∀ later ∈ rest, ¬ later.2.timestamp < T + -minute) :=
  C15_timestamps_follow_order false 1 minute idleScenario (by decide)

/-- C16: `Get` evicts nothing when there is no keep period. For every keep period that is
zero or negative, every capacity, every cache state and every key, `Get` leaves the set
of stored keys, every stored value and `Len()` unchanged, even if `Len()` exceeds the
capacity: the entries of the other keys stay as they are and in their order, and only
the position and timestamp of the accessed key may change. -/
theorem C16_get_without_keep_period (nextLinked : Bool) (l : LRU K V) (hwf : l.WF)
    (hp : l.keepPeriod ≤ 0) (now : Int) (key : K) :
    (∀ other, other ∈ (l.Get nextLinked now key).2.keys ↔ other ∈ l.keys) ∧
    (l.Get nextLinked now key).2.Len = l.Len ∧
    (∀ other, (omGet other (l.Get nextLinked now key).2.om).map (fun tv => tv.value)
      = (omGet other l.om).map (fun tv => tv.value)) ∧
    (∀ other, other ≠ key →
      omGet other (l.Get nextLinked now key).2.om = omGet other l.om) ∧
    omDelete key (l.Get nextLinked now key).2.om = omDelete key l.om := by
  have hl : l.lookupState nextLinked now = l := by
    unfold LRU.lookupState
    rw [if_neg (by omega)]
  have hkeys := Get_keys_iff nextLinked l now key
  have hlen := Get_length_eq nextLinked l hwf now key
  rw [hl] at hkeys hlen
  refine ⟨hkeys, by unfold LRU.Len; rw [hlen], ?_⟩
  cases hg : omGet key (l.lookupState nextLinked now).om with
  | none =>
    rw [Get_miss nextLinked l now key hg, hl]
    exact ⟨fun _ => rfl, fun _ _ => rfl, rfl⟩
  | some tv =>
    rw [Get_hit nextLinked l now key hg, hl]
    rw [hl] at hg
    refine ⟨?_, ?_, omDelete_moved key _ l.om⟩
    · intro other
      by_cases hne : other = key
      · rw [hne, omGet_snoc_self (omGet_omDelete_self key _), hg]
        rfl
      · rw [omGet_snoc_ne hne, omGet_omDelete_ne hne]
    · intro other hne
      show omGet other (omDelete key l.om ++ [(key, _)]) = _
      rw [omGet_snoc_ne hne, omGet_omDelete_ne hne]

theorem C16_get_without_keep_period_witness :
    (∀ other, other ∈ (overfull.Get false 5 2).2.keys ↔ other ∈ overfull.keys) ∧
    (overfull.Get false 5 2).2.Len = overfull.Len ∧
    (∀ other, (omGet other (overfull.Get false 5 2).2.om).map (fun tv => tv.value)
      = (omGet other overfull.om).map (fun tv => tv.value)) ∧
    (∀ other, other ≠ 2 → omGet other (overfull.Get false 5 2).2.om = omGet other overfull.om) ∧
    omDelete 2 (overfull.Get false 5 2).2.om = omDelete 2 overfull.om :=
  C16_get_without_keep_period false overfull (by unfold LRU.WF; decide) (by decide) 5 2

/-- C17: `Get` looks its key up after pruning. With a positive keep period, `Get(k)` at
time `T` returns `(v, true)` exactly when `k` is stored with value `v` in the state
obtained by pruning the prior state at `T`, and the zero value and `false` when `k` is
not stored in that state. So `Get(k)` can evict `k` itself: with capacity 1 and a keep
period of one minute, after `Set` of key 1 and `Set` of key 2 within one second, key 1
is stored, and a `Get` of key 1 one hour later returns `(0, false)` and leaves key 2
only. -/
theorem C17_get_after_prune (nextLinked : Bool) (l : LRU K V) (hp : 0 < l.keepPeriod)
    (now : Int) (key : K) :
    (∀ v, (l.Get nextLinked now key).1 = (v, true) ↔
      ∃ tv, omGet key (l.prune nextLinked now).om = some tv ∧ tv.value = v) ∧
    (omGet key (l.prune nextLinked now).om = none →
      (l.Get nextLinked now key).1 = (default, false)) ∧
    (omGet 1 ((New 1 minute : LRU Nat Nat).run nextLinked (staleRead.take 2)).om
        = some { value := 10, timestamp := 0 } ∧
      (New 1 minute : LRU Nat Nat).results nextLinked staleRead
        = [(0, false), (0, false), (0, false)] ∧
      ((New 1 minute : LRU Nat Nat).run nextLinked staleRead).contents = [(2, 20)]) := by
  have hl : l.lookupState nextLinked now = l.prune nextLinked now := by
    unfold LRU.lookupState
    rw [if_pos hp]
  refine ⟨?_, ?_, ?_⟩
  · intro v
    cases hg : omGet key (l.lookupState nextLinked now).om with
    | none =>
      rw [Get_miss nextLinked l now key hg]
      rw [hl] at hg
      rw [hg]
      simp
    | some tv =>
      rw [Get_hit nextLinked l now key hg]
      rw [hl] at hg
      rw [hg]
      simp
  · intro hnone
    rw [← hl] at hnone
    rw [Get_miss nextLinked l now key hnone]
  · cases nextLinked <;> decide

theorem C17_get_after_prune_witness :
    (∀ v, (twoProtected.Get false 3600 1).1 = (v, true) ↔
      ∃ tv, omGet 1 (twoProtected.prune false 3600).om = some tv ∧ tv.value = v) ∧
    (omGet 1 (twoProtected.prune false 3600).om = none →
      (twoProtected.Get false 3600 1).1 = (default, false)) ∧
    (omGet 1 ((New 1 minute : LRU Nat Nat).run false (staleRead.take 2)).om
        = some { value := 10, timestamp := 0 } ∧
      (New 1 minute : LRU Nat Nat).results false staleRead
        = [(0, false), (0, false), (0, false)] ∧
      ((New 1 minute : LRU Nat Nat).run false staleRead).contents = [(2, 20)]) :=
  C17_get_after_prune false twoProtected (by decide) 3600 1

/-- C18: no over-eviction. For every capacity (of at least 1 or not), every keep period
and every cache state, the pruning routine started on `n` entries removes at most
`max(0, n - capacity)` of them, and if it removes one it leaves at least `capacity`
entries; so a `Get` or a `Set` after which a key stored before the call is no longer
stored leaves `Len() ≥ capacity`. -/
theorem C18_no_over_eviction (nextLinked : Bool) (l : LRU K V) (hwf : l.WF) :
    (∀ T, (l.om.length : Int) - ((l.prune nextLinked T).om.length : Int)
      ≤ max 0 ((l.om.length : Int) - l.capacity)) ∧
    (∀ T, (l.prune nextLinked T).om.length < l.om.length →
      l.capacity ≤ (l.prune nextLinked T).Len) ∧
    (∀ op : Op K V, (∃ key ∈ l.keys, key ∉ (l.step nextLinked op).keys) →
      l.capacity ≤ (l.step nextLinked op).Len) := by
  refine ⟨?_, ?_, ?_⟩
  · intro T
    rcases prune_eq_or_length_ge nextLinked l T with h | ⟨h1, h2⟩
    · rw [h]
      simp
    · exact le_trans (by omega) (le_max_right _ _)
  · intro T hlt
    unfold LRU.Len
    rcases prune_eq_or_length_ge nextLinked l T with h | ⟨h1, _⟩
    · rw [h] at hlt
      exact absurd hlt (lt_irrefl _)
    · exact h1
  · intro op hgone
    obtain ⟨gone, hin, hout⟩ := hgone
    unfold LRU.keys at hin hout
    unfold LRU.Len
    cases op with
    | get now key =>
      change gone ∉ (l.Get nextLinked now key).2.om.map Prod.fst at hout
      change l.capacity ≤ ((l.Get nextLinked now key).2.om.length : Int)
      rw [Get_keys_iff] at hout
      rw [Get_length_eq nextLinked l hwf now key]
      rcases lookupState_eq_or_length_ge nextLinked l now with h | ⟨h1, _⟩
      · rw [h] at hout
        exact absurd hin hout
      · exact h1
    | set now key value =>
      change gone ∉ (l.Set nextLinked now key value).2.om.map Prod.fst at hout
      change l.capacity ≤ ((l.Set nextLinked now key value).2.om.length : Int)
      rw [Set_snd] at hout ⊢
      rcases prune_eq_or_length_ge nextLinked
        (LRU.mk l.capacity l.keepPeriod
          (omDelete key l.om ++ [(key, (⟨value, now⟩ : TimestampedValue V))])) now
        with h | ⟨h1, _⟩
      · rw [h] at hout
        exact absurd ((mem_keys_moved key gone _ l.om).mpr (Or.inl hin)) hout
      · exact h1

theorem C18_no_over_eviction_witness :
    (∀ T, (twoProtected.om.length : Int) - ((twoProtected.prune false T).om.length : Int)
      ≤ max 0 ((twoProtected.om.length : Int) - twoProtected.capacity)) ∧
    (∀ T, (twoProtected.prune false T).om.length < twoProtected.om.length →
      twoProtected.capacity ≤ (twoProtected.prune false T).Len) ∧
    (∀ op : Op Nat Nat, (∃ key ∈ twoProtected.keys, key ∉ (twoProtected.step false op).keys) →
      twoProtected.capacity ≤ (twoProtected.step false op).Len) :=
  C18_no_over_eviction false twoProtected (by unfold LRU.WF; decide)

/-- C19: key uniqueness and size. In every state reached from `New` by `Get` and `Set`
calls the keys of the oldest-to-newest order are pairwise distinct and `Len()` is their
number. In a state with distinct keys, `Set(k, v)` on a stored key `k` stores `v` and
the clock reading of the call under `k`, keeps `k` a single entry and does not raise
`Len()`; every `Set` raises `Len()` by at most 1 and no `Get` raises it. -/
theorem C19_keys_unique (nextLinked : Bool) (l : LRU K V) (hwf : l.WF) :
    (∀ (capacity keepPeriod : Int) (ops : List (Op K V)),
      ((New capacity keepPeriod : LRU K V).run nextLinked ops).keys.Nodup ∧
      ((New capacity keepPeriod : LRU K V).run nextLinked ops).Len
        = (((New capacity keepPeriod : LRU K V).run nextLinked ops).keys.length : Int)) ∧
    (∀ now key value old, omGet key l.om = some old →
      omGet key (l.Set nextLinked now key value).2.om
        = some { value := value, timestamp := now } ∧
      (l.Set nextLinked now key value).2.keys.count key = 1 ∧
      (l.Set nextLinked now key value).2.Len ≤ l.Len) ∧
    (∀ now key value, (l.Set nextLinked now key value).2.keys.Nodup ∧
      (l.Set nextLinked now key value).2.Len ≤ l.Len + 1) ∧
    (∀ now key, (l.Get nextLinked now key).2.keys.Nodup ∧
      (l.Get nextLinked now key).2.Len ≤ l.Len) := by
  have hset : ∀ now key value, (l.Set nextLinked now key value).2.keys.Nodup :=
    fun now key value => step_WF nextLinked l (Op.set now key value) hwf
  have hsetlen : ∀ now key value,
      (l.Set nextLinked now key value).2.om.length ≤ (omDelete key l.om).length + 1 := by
    intro now key value
    rw [Set_snd]
    have := (prune_om_suffix nextLinked
      (LRU.mk l.capacity l.keepPeriod
        (omDelete key l.om ++ [(key, (⟨value, now⟩ : TimestampedValue V))])) now).length_le
    simpa using this
  refine ⟨?_, ?_, ?_, ?_⟩
  · intro capacity keepPeriod ops
    refine ⟨run_WF nextLinked ops _ (by simp [LRU.WF, LRU.keys, New]), ?_⟩
    simp [LRU.Len, LRU.keys]
  · intro now key value old hold
    obtain ⟨ys, hys, heq⟩ := Set_om nextLinked l now key value
    refine ⟨?_, ?_, ?_⟩
    · rw [heq]
      exact omGet_snoc_self (omGet_of_suffix_omDelete hys) _
    · apply List.count_eq_one_of_mem (hset now key value)
      unfold LRU.keys
      rw [heq]
      simp
    · have h1 := hsetlen now key value
      have h2 := omDelete_length_of_nodup hwf hold
      unfold LRU.Len
      omega
  · intro now key value
    refine ⟨hset now key value, ?_⟩
    have h1 := hsetlen now key value
    have h2 := omDelete_length_le key l.om
    unfold LRU.Len
    omega
  · intro now key
    refine ⟨step_WF nextLinked l (Op.get now key) hwf, ?_⟩
    have := Get_length_le nextLinked l now key
    unfold LRU.Len
    omega

theorem C19_keys_unique_witness :
    (∀ (capacity keepPeriod : Int) (ops : List (Op Nat Nat)),
      ((New capacity keepPeriod : LRU Nat Nat).run false ops).keys.Nodup ∧
      ((New capacity keepPeriod : LRU Nat Nat).run false ops).Len
        = (((New capacity keepPeriod : LRU Nat Nat).run false ops).keys.length : Int)) ∧
    (∀ now key value old, omGet key twoProtected.om = some old →
      omGet key (twoProtected.Set false now key value).2.om
        = some { value := value, timestamp := now } ∧
      (twoProtected.Set false now key value).2.keys.count key = 1 ∧
      (twoProtected.Set false now key value).2.Len ≤ twoProtected.Len) ∧
    (∀ now key value, (twoProtected.Set false now key value).2.keys.Nodup ∧
      (twoProtected.Set false now key value).2.Len ≤ twoProtected.Len + 1) ∧
    (∀ now key, (twoProtected.Get false now key).2.keys.Nodup ∧
      (twoProtected.Get false now key).2.Len ≤ twoProtected.Len) :=
  C19_keys_unique false twoProtected (by unfold LRU.WF; decide)

end claims



end lru
